import Mathlib

/-!
Verification of the resource-materialization pipeline of `agora_wot`
(`agora_wot/proxy.py`), shallowly embedded in Lean 4.

JSON trees become an inductive `JValue`; Python dicts become ordered
association lists (insertion order preserved, first-match lookup); mutation
becomes explicit state passing; a Python exception becomes `Except.error`;
functions whose Python counterparts can recurse unboundedly take a fuel
argument, and fuel exhaustion is modelled as a raised exception (which is
what CPython's RecursionError produces at that point).  External
collaborators (the fountain registry, jsonpath, pyld's normalization, HTTP
calls, rdf loads) are oracle parameters.
-/

/-- A JSON value as handled by the proxy.  `lazyv` is the tagged model of a
deferred "lazy value provider" (a Python callable stored in the tree); its
evaluation is delegated to an oracle keyed by the tag. -/
inductive JValue where
  | null : JValue
  | b : Bool → JValue
  | i : Int → JValue
  | s : String → JValue
  | arr : List JValue → JValue
  | obj : List (String × JValue) → JValue
  | lazyv : Nat → JValue

mutual

/-- Boolean structural equality on JSON values. -/
def beqV : JValue → JValue → Bool
  | .null, .null => true
  | .b x, .b y => x == y
  | .i x, .i y => x == y
  | .s x, .s y => x == y
  | .lazyv x, .lazyv y => x == y
  | .arr xs, .arr ys => beqL xs ys
  | .obj xs, .obj ys => beqF xs ys
  | _, _ => false

/-- Boolean structural equality on JSON value lists. -/
def beqL : List JValue → List JValue → Bool
  | [], [] => true
  | x :: xs, y :: ys => beqV x y && beqL xs ys
  | _, _ => false

/-- Boolean structural equality on JSON field lists. -/
def beqF : List (String × JValue) → List (String × JValue) → Bool
  | [], [] => true
  | (k, v) :: xs, (k2, v2) :: ys => k == k2 && beqV v v2 && beqF xs ys
  | _, _ => false

end

mutual

theorem eq_of_beqV : ∀ (a b : JValue), beqV a b = true → a = b
  | .null, b => by cases b <;> simp [beqV]
  | .b x, b => by cases b <;> simp [beqV]
  | .i x, b => by cases b <;> simp [beqV]
  | .s x, b => by cases b <;> simp [beqV]
  | .lazyv x, b => by cases b <;> simp [beqV]
  | .arr xs, b => by
      cases b <;> simp [beqV]
      exact fun h => eq_of_beqL xs _ h
  | .obj xs, b => by
      cases b <;> simp [beqV]
      exact fun h => eq_of_beqF xs _ h

theorem eq_of_beqL : ∀ (a b : List JValue), beqL a b = true → a = b
  | [], b => by cases b <;> simp [beqL]
  | x :: xs, b => by
      cases b with
      | nil => simp [beqL]
      | cons y ys =>
          intro h
          simp only [beqL, Bool.and_eq_true] at h
          rw [eq_of_beqV x y h.1, eq_of_beqL xs ys h.2]

theorem eq_of_beqF : ∀ (a b : List (String × JValue)), beqF a b = true → a = b
  | [], b => by cases b <;> simp [beqF]
  | (k, v) :: xs, b => by
      cases b with
      | nil => simp [beqF]
      | cons y ys =>
          intro h
          simp only [beqF, Bool.and_eq_true, beq_iff_eq] at h
          rw [eq_of_beqV v y.2 h.1.2, eq_of_beqF xs ys h.2, h.1.1]

end

mutual

theorem beqV_refl : ∀ (a : JValue), beqV a a = true
  | .null => rfl
  | .b x => by simp [beqV]
  | .i x => by simp [beqV]
  | .s x => by simp [beqV]
  | .lazyv x => by simp [beqV]
  | .arr xs => by simp only [beqV]; exact beqL_refl xs
  | .obj xs => by simp only [beqV]; exact beqF_refl xs

theorem beqL_refl : ∀ (a : List JValue), beqL a a = true
  | [] => rfl
  | x :: xs => by
      simp only [beqL, Bool.and_eq_true]
      exact ⟨beqV_refl x, beqL_refl xs⟩

theorem beqF_refl : ∀ (a : List (String × JValue)), beqF a a = true
  | [] => rfl
  | (k, v) :: xs => by
      simp only [beqF, Bool.and_eq_true, beq_iff_eq]
      exact ⟨⟨trivial, beqV_refl v⟩, beqF_refl xs⟩

end

instance : DecidableEq JValue := fun a b =>
  if h : beqV a b = true then isTrue (eq_of_beqV a b h)
  else isFalse (fun he => h (he ▸ beqV_refl a))

instance {ε α : Type} [DecidableEq ε] [DecidableEq α] :
    DecidableEq (Except ε α) := fun a b =>
  match a, b with
  | .error x, .error y =>
      if h : x = y then isTrue (by rw [h])
      else isFalse (fun he => by cases he; exact h rfl)
  | .ok x, .ok y =>
      if h : x = y then isTrue (by rw [h])
      else isFalse (fun he => by cases he; exact h rfl)
  | .error _, .ok _ => isFalse (fun he => by cases he)
  | .ok _, .error _ => isFalse (fun he => by cases he)

namespace JValue

/-- Python `isinstance(v, dict)`. -/
def isObj : JValue → Bool
  | .obj _ => true
  | _ => false

/-- Python `isinstance(v, list)`. -/
def isArr : JValue → Bool
  | .arr _ => true
  | _ => false

/-- Python `hasattr(v, '__call__')` under the tagged-variant model. -/
def isLazy : JValue → Bool
  | .lazyv _ => true
  | _ => false

end JValue

/-- First-match lookup in an ordered association list (Python `d[k]` /
`d.get(k)`). -/
def jlookup (fields : List (String × JValue)) (k : String) : Option JValue :=
  match fields with
  | [] => none
  | (k', v) :: rest => if k' = k then some v else jlookup rest k

/-- Python `k in d`. -/
def jhas (fields : List (String × JValue)) (k : String) : Bool :=
  (jlookup fields k).isSome

/-- Python `d[k] = v`: replace the value in place if the key exists
(keeping its position), otherwise append the new key at the end, exactly
like insertion-ordered dicts. -/
def jset (fields : List (String × JValue)) (k : String) (v : JValue) :
    List (String × JValue) :=
  match fields with
  | [] => [(k, v)]
  | (k', v') :: rest =>
      if k' = k then (k', v) :: rest else (k', v') :: jset rest k v

/-- The entries stored at a predicate: a list value contributes its
elements, anything else is a single entry. -/
def jentries : JValue → List JValue
  | .arr xs => xs
  | v => [v]

/-- One mapping rule (`agora_wot.blocks.Mapping` as consumed by
`apply_mappings`).  `predicate` is the target predicate URI; rendering to
n3 compact form happens through the `n3` oracle at application time, as in
`m.predicate.n3(ns)`.  `transform.attach` is an opaque function. -/
structure Mapping where
  key : String
  predicate : String
  path : Option String
  transform : Option (JValue → JValue)
  limit : Bool

/-- The write-back step of `apply_mapping` (proxy.py lines 89-95): write
`mv` at key `p`, merging with an existing value into a deduplicated list
rather than overwriting, and never re-adding an equal value. -/
def mergeAt (cur : List (String × JValue)) (p : String) (mv : JValue) :
    List (String × JValue) :=
  match jlookup cur p with
  | none => jset cur p mv
  | some old =>
      if old = mv then cur
      else
        let l := jentries old
        let l' := if mv ∈ l then l else l ++ [mv]
        jset cur p (.arr l')

/-- The `[:1]` truncation of `apply_mapping`: a list value is cut to its
first element when the mapping declares `limit`. -/
def limitVal (limit : Bool) (v : JValue) : JValue :=
  match v, limit with
  | .arr xs, true => .arr (xs.take 1)
  | _, _ => v

/-- The recursive kernel of `apply_mappings` (proxy.py lines 74-99,
`apply_mapping`).  A dict iterates the snapshot of its keys; a key equal to
the mapping key has its value (unless `None`) truncated by `limit`,
transformed, and merged at the predicate, after which recursion continues
into the value now sitting at the merge target; any other key recurses into
its own value.  Lists recurse elementwise.  Fuel exhaustion models the
unbounded Python recursion blowing the stack. -/
def applyMappingVal (mKey p : String) (limit : Bool)
    (transform : Option (JValue → JValue)) :
    Nat → JValue → Except Unit JValue
  | 0, _ => .error ()
  | Nat.succ fuel, v =>
    match v with
    | .obj fields =>
        let step : List (String × JValue) → String →
            Except Unit (List (String × JValue)) := fun cur k =>
          if k = mKey then
            let v0 := (jlookup cur k).getD .null
            if v0 = .null then .ok cur
            else
              let mv1 := limitVal limit v0
              let mv := match transform with
                | some f => f v0
                | none => mv1
              let cur1 := mergeAt cur p mv
              match applyMappingVal mKey p limit transform fuel
                  ((jlookup cur1 p).getD .null) with
              | .error e => .error e
              | .ok sub => .ok (jset cur1 p sub)
          else
            match applyMappingVal mKey p limit transform fuel
                ((jlookup cur k).getD .null) with
            | .error e => .error e
            | .ok sub => .ok (jset cur k sub)
        match (fields.map Prod.fst).foldlM step fields with
        | .error e => .error e
        | .ok fields' => .ok (.obj fields')
    | .arr xs =>
        match xs.mapM (applyMappingVal mKey p limit transform fuel) with
        | .error e => .error e
        | .ok xs' => .ok (.arr xs')
    | v => .ok v

/-- One iteration of the key loop of `apply_mapping` (the lambda inside
`applyMappingVal`, named for reasoning): the matching key is merged at the
predicate, then recursion descends into the value now at the loop's
`next_k` (the merge target for a match, the key itself otherwise) and the
recursion's result is stored back. -/
def amStep (mKey p : String) (limit : Bool)
    (transform : Option (JValue → JValue)) (fuel : Nat)
    (cur : List (String × JValue)) (k : String) :
    Except Unit (List (String × JValue)) :=
  if k = mKey then
    let v0 := (jlookup cur k).getD .null
    if v0 = .null then .ok cur
    else
      let mv1 := limitVal limit v0
      let mv := match transform with
        | some f => f v0
        | none => mv1
      let cur1 := mergeAt cur p mv
      match applyMappingVal mKey p limit transform fuel
          ((jlookup cur1 p).getD .null) with
      | .error e => .error e
      | .ok sub => .ok (jset cur1 p sub)
  else
    match applyMappingVal mKey p limit transform fuel
        ((jlookup cur k).getD .null) with
    | .error e => .error e
    | .ok sub => .ok (jset cur k sub)

/-- Unfolding of the dict branch of `applyMappingVal` through the named
step function. -/
theorem applyMappingVal_obj (mKey p : String) (limit : Bool)
    (transform : Option (JValue → JValue)) (fuel : Nat)
    (fields : List (String × JValue)) :
    applyMappingVal mKey p limit transform (fuel + 1) (.obj fields) =
      match (fields.map Prod.fst).foldlM
          (amStep mKey p limit transform fuel) fields with
      | .error e => .error e
      | .ok fields' => .ok (.obj fields') := rfl

/-- Unfolding of the list branch of `applyMappingVal`. -/
theorem applyMappingVal_arr (mKey p : String) (limit : Bool)
    (transform : Option (JValue → JValue)) (fuel : Nat)
    (xs : List JValue) :
    applyMappingVal mKey p limit transform (fuel + 1) (.arr xs) =
      match xs.mapM (applyMappingVal mKey p limit transform fuel) with
      | .error e => .error e
      | .ok xs' => .ok (.arr xs') := rfl

/-- `path_data` (proxy.py lines 57-70): evaluate the jsonpath query through
an oracle returning the list of matches; one match is returned bare,
several as a list, and none (or a raised query error, modelled by the
oracle returning the empty list) falls back to the unnarrowed data. -/
def path_data (pathEval : String → JValue → List JValue) (path : String)
    (data : JValue) : JValue :=
  match pathEval path data with
  | [] => data
  | [x] => x
  | xs => .arr xs

/-- `apply_mappings` (proxy.py lines 73-121): optional `$container`
wrapping of non-dict input, then for each mapping an optional path
narrowing followed by the recursive key rewrite. -/
def apply_mappings (n3 : String → String)
    (pathEval : String → JValue → List JValue) (fuel : Nat)
    (data : JValue) (mappings : List Mapping) : Except Unit JValue :=
  let container := mappings.any (fun m => m.key = "$container")
  let data0 := if container ∧ ¬ data.isObj then
      JValue.obj [("$container", data)]
    else data
  mappings.foldlM (fun d m =>
    let pn3 := n3 m.predicate
    let d1 := match m.path with
      | none => d
      | some pa =>
          let pd := path_data pathEval pa d
          match d with
          | .arr _ => pd
          | .obj fs =>
              match pd with
              | .arr _ => .obj (jset fs m.key pd)
              | .obj pfs => .obj (pfs.foldl (fun acc kv => jset acc kv.1 kv.2) fs)
              | _ => .obj (jset fs m.key pd)
          | _ => d
    applyMappingVal m.key pn3 m.limit m.transform fuel d1) data0


/-! ### Association-list lemmas -/

theorem jlookup_jset_self (fs : List (String × JValue)) (k : String)
    (v : JValue) : jlookup (jset fs k v) k = some v := by
  induction fs with
  | nil => simp [jset, jlookup]
  | cons kv rest ih =>
      by_cases h : kv.1 = k
      · simp [jset, jlookup, h]
      · simp [jset, jlookup, h, ih]

theorem jlookup_jset_ne (fs : List (String × JValue)) (k k' : String)
    (v : JValue) (h : k' ≠ k) :
    jlookup (jset fs k v) k' = jlookup fs k' := by
  have h' : ¬ (k = k') := fun he => h he.symm
  induction fs with
  | nil => simp [jset, jlookup, h']
  | cons kv rest ih =>
      by_cases hk : kv.1 = k
      · subst hk
        simp [jset, jlookup, h']
      · simp [jset, jlookup, hk, ih]

theorem jset_self (fs : List (String × JValue)) (k : String) (v : JValue)
    (h : jlookup fs k = some v) : jset fs k v = fs := by
  induction fs with
  | nil => simp [jlookup] at h
  | cons kv rest ih =>
      by_cases hk : kv.1 = k
      · simp only [jlookup, hk, if_pos] at h
        obtain ⟨k1, v1⟩ := kv
        simp only at hk
        injection h with h
        simp only at h
        subst h hk
        simp [jset]
      · simp only [jlookup, hk, if_neg, if_false] at h
        simp [jset, hk, ih h]

theorem jset_of_none (fs : List (String × JValue)) (k : String) (v : JValue)
    (h : jlookup fs k = none) : jset fs k v = fs ++ [(k, v)] := by
  induction fs with
  | nil => simp [jset]
  | cons kv rest ih =>
      by_cases hk : kv.1 = k
      · simp [jlookup, hk] at h
      · simp only [jlookup, hk, if_neg, if_false] at h
        simp [jset, hk, ih h]

theorem jlookup_mem (fs : List (String × JValue)) (k : String) (v : JValue)
    (h : jlookup fs k = some v) : (k, v) ∈ fs := by
  induction fs with
  | nil => simp [jlookup] at h
  | cons kv rest ih =>
      by_cases hk : kv.1 = k
      · simp only [jlookup, hk, if_pos] at h
        obtain ⟨k1, v1⟩ := kv
        simp only at hk
        injection h with h
        rw [← hk, ← h]
        exact List.mem_cons_self _ _
      · simp only [jlookup, hk, if_neg, if_false] at h
        exact List.mem_cons_of_mem _ (ih h)

theorem jlookup_none_iff (fs : List (String × JValue)) (k : String) :
    jlookup fs k = none ↔ k ∉ fs.map Prod.fst := by
  induction fs with
  | nil => simp [jlookup]
  | cons kv rest ih =>
      by_cases hk : kv.1 = k
      · simp [jlookup, hk]
      · simp only [jlookup, hk, if_neg, if_false, List.map_cons,
          List.mem_cons, ih]
        constructor
        · intro hn hor
          rcases hor with hor | hor
          · exact hk hor.symm
          · exact hn hor
        · intro hn hm
          exact hn (Or.inr hm)

theorem jlookup_isSome_of_mem (fs : List (String × JValue)) (k : String)
    (h : k ∈ fs.map Prod.fst) : ∃ v, jlookup fs k = some v := by
  cases hl : jlookup fs k with
  | none => exact absurd h ((jlookup_none_iff fs k).mp hl)
  | some v => exact ⟨v, rfl⟩

theorem jlookup_append_left (fs gs : List (String × JValue)) (k : String)
    (v : JValue) (h : jlookup fs k = some v) :
    jlookup (fs ++ gs) k = some v := by
  induction fs with
  | nil => simp [jlookup] at h
  | cons kv rest ih =>
      by_cases hk : kv.1 = k
      · simp only [jlookup, hk, if_pos] at h
        simpa [jlookup, hk] using h
      · simp only [jlookup, hk, if_neg, if_false] at h
        simpa [jlookup, hk] using ih h

theorem jlookup_append_right (fs gs : List (String × JValue)) (k : String)
    (h : jlookup fs k = none) : jlookup (fs ++ gs) k = jlookup gs k := by
  induction fs with
  | nil => simp
  | cons kv rest ih =>
      by_cases hk : kv.1 = k
      · simp [jlookup, hk] at h
      · simp only [jlookup, hk, if_neg, if_false] at h
        simpa [jlookup, hk] using ih h

/-! ### Flatness: values without nested dicts, as used by the merge
analysis of `apply_mapping` -/

/-- A JSON scalar (neither a list nor a dict). -/
def atom : JValue → Bool
  | .arr _ => false
  | .obj _ => false
  | _ => true

/-- A scalar or a list of scalars: the shape of field values in a flat
JSON object. -/
def flat1 : JValue → Bool
  | .arr xs => xs.all atom
  | .obj _ => false
  | _ => true

/-- A scalar or a list of `flat1` values: the shape a merge target can
take after whole-list merges. -/
def flat2 : JValue → Bool
  | .arr xs => xs.all flat1
  | .obj _ => false
  | _ => true

theorem flat1_of_atom (v : JValue) (h : atom v = true) : flat1 v = true := by
  cases v <;> simp_all [atom, flat1]

theorem flat2_of_flat1 (v : JValue) (h : flat1 v = true) :
    flat2 v = true := by
  cases v with
  | arr xs =>
      simp only [flat1, List.all_eq_true] at h
      simp only [flat2, List.all_eq_true]
      exact fun x hx => flat1_of_atom x (h x hx)
  | obj fs => simp [flat1] at h
  | _ => simp [flat2]

theorem flat1_limitVal (limit : Bool) (v : JValue) (h : flat1 v = true) :
    flat1 (limitVal limit v) = true := by
  cases v with
  | arr xs =>
      cases limit with
      | true =>
          simp only [flat1, List.all_eq_true, limitVal] at h ⊢
          exact fun x hx => h x (List.mem_of_mem_take hx)
      | false => simpa [limitVal] using h
  | obj fs => simp [flat1] at h
  | _ => cases limit <;> simpa [limitVal] using h

/-- The value sitting at the merge target after the write-back step of
`apply_mapping`, as a function of the previous value. -/
def mergeVal (old : Option JValue) (mv : JValue) : JValue :=
  match old with
  | none => mv
  | some o =>
      if o = mv then o
      else
        let l := jentries o
        if mv ∈ l then .arr l else .arr (l ++ [mv])

theorem mergeAt_eq (cur : List (String × JValue)) (p : String)
    (mv : JValue) :
    mergeAt cur p mv = jset cur p (mergeVal (jlookup cur p) mv) := by
  unfold mergeAt mergeVal
  cases h : jlookup cur p with
  | none => rfl
  | some o =>
      by_cases he : o = mv
      · simp [he, jset_self cur p mv (he ▸ h)]
      · simp only [he, if_false]
        by_cases hm : mv ∈ jentries o <;> simp [hm]

theorem flat2_jentries (v : JValue) (h : flat2 v = true) :
    ∀ x ∈ jentries v, flat1 x = true := by
  cases v with
  | arr xs =>
      simp only [flat2, List.all_eq_true] at h
      simpa [jentries] using h
  | obj fs => simp [flat2] at h
  | null => intro x hx; simp [jentries] at hx; simp [hx, flat1]
  | b y => intro x hx; simp [jentries] at hx; simp [hx, flat1]
  | i y => intro x hx; simp [jentries] at hx; simp [hx, flat1]
  | s y => intro x hx; simp [jentries] at hx; simp [hx, flat1]
  | lazyv y => intro x hx; simp [jentries] at hx; simp [hx, flat1]

theorem flat2_arr (xs : List JValue) (h : ∀ x ∈ xs, flat1 x = true) :
    flat2 (.arr xs) = true := by
  simpa [flat2, List.all_eq_true] using h

theorem flat2_mergeVal (old : Option JValue) (mv : JValue)
    (ho : ∀ o, old = some o → flat2 o = true) (hm : flat1 mv = true) :
    flat2 (mergeVal old mv) = true := by
  cases old with
  | none => exact flat2_of_flat1 mv hm
  | some o =>
      have ho' := ho o rfl
      unfold mergeVal
      by_cases he : o = mv
      · simpa [he] using flat2_of_flat1 mv hm
      · simp only [he, if_false]
        by_cases hmem : mv ∈ jentries o
        · simp only [hmem, if_true]
          exact flat2_arr _ (flat2_jentries o ho')
        · simp only [hmem, if_false]
          refine flat2_arr _ ?_
          intro x hx
          rcases List.mem_append.mp hx with hx | hx
          · exact flat2_jentries o ho' x hx
          · simp only [List.mem_singleton] at hx
            rw [hx]
            exact hm

/-! ### Identity of the mapping recursion on flat values -/

theorem am_atom (mKey pd : String) (limit : Bool)
    (tr : Option (JValue → JValue)) (fuel : Nat) (v : JValue)
    (h : atom v = true) (hf : 1 ≤ fuel) :
    applyMappingVal mKey pd limit tr fuel v = .ok v := by
  obtain ⟨n, rfl⟩ : ∃ n, fuel = n + 1 := ⟨fuel - 1, by omega⟩
  cases v <;> simp_all [applyMappingVal, atom]

theorem amMapM_ok (mKey pd : String) (limit : Bool)
    (tr : Option (JValue → JValue)) (fuel : Nat) (xs : List JValue)
    (h : ∀ x ∈ xs, applyMappingVal mKey pd limit tr fuel x = .ok x) :
    xs.mapM (applyMappingVal mKey pd limit tr fuel) = .ok xs := by
  induction xs with
  | nil => rfl
  | cons x rest ih =>
      have hx := h x (List.mem_cons_self _ _)
      have hrest := ih (fun y hy => h y (List.mem_cons_of_mem _ hy))
      rw [List.mapM_cons, hx, hrest]
      rfl

theorem am_flat1 (mKey pd : String) (limit : Bool)
    (tr : Option (JValue → JValue)) (fuel : Nat) (v : JValue)
    (h : flat1 v = true) (hf : 2 ≤ fuel) :
    applyMappingVal mKey pd limit tr fuel v = .ok v := by
  obtain ⟨n, rfl⟩ : ∃ n, fuel = n + 1 := ⟨fuel - 1, by omega⟩
  cases v with
  | arr xs =>
      simp only [flat1, List.all_eq_true] at h
      have hmm : xs.mapM (applyMappingVal mKey pd limit tr n) = .ok xs :=
        amMapM_ok _ _ _ _ _ _
          (fun x hx => am_atom _ _ _ _ _ _ (h x hx) (by omega))
      rw [applyMappingVal_arr, hmm]
  | obj fs => simp [flat1] at h
  | null => simp [applyMappingVal]
  | b y => simp [applyMappingVal]
  | i y => simp [applyMappingVal]
  | s y => simp [applyMappingVal]
  | lazyv y => simp [applyMappingVal]

theorem am_flat2 (mKey pd : String) (limit : Bool)
    (tr : Option (JValue → JValue)) (fuel : Nat) (v : JValue)
    (h : flat2 v = true) (hf : 3 ≤ fuel) :
    applyMappingVal mKey pd limit tr fuel v = .ok v := by
  obtain ⟨n, rfl⟩ : ∃ n, fuel = n + 1 := ⟨fuel - 1, by omega⟩
  cases v with
  | arr xs =>
      simp only [flat2, List.all_eq_true] at h
      have hmm : xs.mapM (applyMappingVal mKey pd limit tr n) = .ok xs :=
        amMapM_ok _ _ _ _ _ _
          (fun x hx => am_flat1 _ _ _ _ _ _ (h x hx) (by omega))
      rw [applyMappingVal_arr, hmm]
  | obj fs => simp [flat2] at h
  | null => simp [applyMappingVal]
  | b y => simp [applyMappingVal]
  | i y => simp [applyMappingVal]
  | s y => simp [applyMappingVal]
  | lazyv y => simp [applyMappingVal]

theorem amStep_nonmatch (mKey pd : String) (limit : Bool)
    (tr : Option (JValue → JValue)) (fuel : Nat)
    (cur : List (String × JValue)) (k : String) (v : JValue)
    (hk : k ≠ mKey) (hv : jlookup cur k = some v) (hfl : flat2 v = true)
    (hf : 3 ≤ fuel) :
    amStep mKey pd limit tr fuel cur k = .ok cur := by
  unfold amStep
  rw [if_neg hk, hv]
  simp only [Option.getD_some]
  rw [am_flat2 _ _ _ _ _ _ hfl hf]
  simp [jset_self cur k v hv]

theorem amStep_match (mKey pd : String) (limit : Bool) (fuel : Nat)
    (cur : List (String × JValue)) (v : JValue)
    (hv : jlookup cur mKey = some v) (hvn : v ≠ .null)
    (hflm : flat1 (limitVal limit v) = true)
    (hfl2 : ∀ o, jlookup cur pd = some o → flat2 o = true)
    (hf : 3 ≤ fuel) :
    amStep mKey pd limit none fuel cur mKey =
      .ok (jset cur pd (mergeVal (jlookup cur pd) (limitVal limit v))) := by
  unfold amStep
  rw [if_pos rfl, hv]
  simp only [Option.getD_some]
  rw [if_neg hvn]
  rw [mergeAt_eq]
  rw [jlookup_jset_self]
  simp only [Option.getD_some]
  have hm2 : flat2 (mergeVal (jlookup cur pd) (limitVal limit v)) = true :=
    flat2_mergeVal _ _ hfl2 hflm
  rw [am_flat2 _ _ _ _ _ _ hm2 hf]
  have hss := jset_self
    (jset cur pd (mergeVal (jlookup cur pd) (limitVal limit v))) pd
    (mergeVal (jlookup cur pd) (limitVal limit v))
    (jlookup_jset_self _ _ _)
  simp [hss]

theorem exFoldlM_append {α β : Type} (f : β → α → Except Unit β)
    (l1 l2 : List α) (b : β) :
    (l1 ++ l2).foldlM f b =
      match l1.foldlM f b with
      | .error e => .error e
      | .ok c => l2.foldlM f c := by
  induction l1 generalizing b with
  | nil => rfl
  | cons x xs ih =>
      rw [List.cons_append, List.foldlM_cons, List.foldlM_cons]
      cases f b x with
      | error e => rfl
      | ok c => exact ih c

theorem amFoldlM_id (mKey pd : String) (limit : Bool)
    (tr : Option (JValue → JValue)) (fuel : Nat) (ks : List String)
    (cur : List (String × JValue)) (hf : 3 ≤ fuel)
    (h : ∀ k ∈ ks, k ≠ mKey ∧ ∃ v, jlookup cur k = some v ∧
      flat2 v = true) :
    ks.foldlM (amStep mKey pd limit tr fuel) cur = .ok cur := by
  induction ks with
  | nil => rfl
  | cons k ks ih =>
      obtain ⟨hk, v, hv, hfl⟩ := h k (List.mem_cons_self _ _)
      have hstep := amStep_nonmatch mKey pd limit tr fuel cur k v hk hv hfl hf
      rw [List.foldlM_cons, hstep]
      show ks.foldlM (amStep mKey pd limit tr fuel) cur = .ok cur
      exact ih (fun k' hk' => h k' (List.mem_cons_of_mem _ hk'))

/-- One full application of `apply_mapping` to a flat object: the matched
key's value is merged at the predicate and nothing else changes. -/
theorem applyMappingVal_flatobj (mKey pd : String) (limit : Bool)
    (fuel : Nat) (fields : List (String × JValue)) (v : JValue)
    (hf : 4 ≤ fuel)
    (hnd : (fields.map Prod.fst).Nodup)
    (hmp : mKey ≠ pd)
    (hv : jlookup fields mKey = some v) (hvn : v ≠ .null)
    (hflat : ∀ kv ∈ fields, kv.1 = pd ∨ flat1 kv.2 = true)
    (hpflat : ∀ o, jlookup fields pd = some o → flat2 o = true) :
    applyMappingVal mKey pd limit none fuel (.obj fields) =
      .ok (.obj (jset fields pd
        (mergeVal (jlookup fields pd) (limitVal limit v)))) := by
  obtain ⟨n, rfl⟩ : ∃ n, fuel = n + 1 := ⟨fuel - 1, by omega⟩
  have hn3 : 3 ≤ n := by omega
  have hflat2 : ∀ k w, jlookup fields k = some w → flat2 w = true := by
    intro k w hw
    by_cases hkpd : k = pd
    · exact hpflat w (hkpd ▸ hw)
    · rcases hflat (k, w) (jlookup_mem _ _ _ hw) with hc | hc
      · exact absurd hc hkpd
      · exact flat2_of_flat1 _ hc
  have hv1fl : flat1 v = true := by
    rcases hflat (mKey, v) (jlookup_mem _ _ _ hv) with hc | hc
    · exact absurd hc hmp
    · exact hc
  have hmem : mKey ∈ fields.map Prod.fst := by
    exact List.mem_map_of_mem _ (jlookup_mem _ _ _ hv)
  obtain ⟨l1, l2, hdec⟩ := List.append_of_mem hmem
  have hndd := hnd
  rw [hdec] at hndd
  rw [List.nodup_append] at hndd
  have hl1 : ∀ k ∈ l1, k ≠ mKey := by
    intro k hk he
    exact hndd.2.2 hk (he ▸ List.mem_cons_self _ _)
  have hl2 : ∀ k ∈ l2, k ≠ mKey := by
    intro k hk he
    have := hndd.2.1
    rw [List.nodup_cons] at this
    exact this.1 (he ▸ hk)
  have hsub1 : ∀ k ∈ l1, k ∈ fields.map Prod.fst := by
    intro k hk
    rw [hdec]
    exact List.mem_append_left _ hk
  have hsub2 : ∀ k ∈ l2, k ∈ fields.map Prod.fst := by
    intro k hk
    rw [hdec]
    exact List.mem_append_right _ (List.mem_cons_of_mem _ hk)
  -- the key loop: untouched prefix, the matching step, untouched suffix
  have hfold1 : l1.foldlM (amStep mKey pd limit none n) fields =
      .ok fields := by
    refine amFoldlM_id _ _ _ _ _ _ _ hn3 ?_
    intro k hk
    refine ⟨hl1 k hk, ?_⟩
    obtain ⟨w, hw⟩ := jlookup_isSome_of_mem _ _ (hsub1 k hk)
    exact ⟨w, hw, hflat2 k w hw⟩
  have hstep := amStep_match mKey pd limit n fields v hv hvn
    (flat1_limitVal limit v hv1fl) hpflat hn3
  set fields' := jset fields pd (mergeVal (jlookup fields pd)
    (limitVal limit v)) with hfields'
  have hfold2 : l2.foldlM (amStep mKey pd limit none n) fields' =
      .ok fields' := by
    refine amFoldlM_id _ _ _ _ _ _ _ hn3 ?_
    intro k hk
    refine ⟨hl2 k hk, ?_⟩
    by_cases hkpd : k = pd
    · subst hkpd
      refine ⟨_, jlookup_jset_self _ _ _, ?_⟩
      exact flat2_mergeVal _ _ hpflat (flat1_limitVal limit v hv1fl)
    · obtain ⟨w, hw⟩ := jlookup_isSome_of_mem _ _ (hsub2 k hk)
      refine ⟨w, ?_, hflat2 k w hw⟩
      rw [hfields', jlookup_jset_ne _ _ _ _ hkpd]
      exact hw
  have hrun : (fields.map Prod.fst).foldlM (amStep mKey pd limit none n)
      fields = .ok fields' := by
    rw [hdec, exFoldlM_append, hfold1]
    show (mKey :: l2).foldlM (amStep mKey pd limit none n) fields =
      .ok fields'
    rw [List.foldlM_cons, hstep]
    show l2.foldlM (amStep mKey pd limit none n) fields' = .ok fields'
    exact hfold2
  rw [applyMappingVal_obj, hrun]

/-- Claim C5 (amended): when two mappings send two different source fields
of a flat JSON object to the same target predicate, the second value is
merged with the first into a list at that predicate rather than
overwriting it: an equal value is not re-added at all, a value already
among the entries at the predicate is not appended again, and otherwise it
is appended once; consequently the entries at the predicate are
duplicate-free whenever the first source value's own entries are.  (The
original claim fails when a source value is a list that itself contains
duplicates: it is installed at the predicate verbatim.) -/
theorem c5_apply_mappings_merges_dedup
    (n3 : String → String) (pathEval : String → JValue → List JValue)
    (fuel : Nat) (fields : List (String × JValue)) (m1 m2 : Mapping)
    (k1 k2 pd : String) (v1 v2 : JValue)
    (hf : 4 ≤ fuel)
    (hm1k : m1.key = k1) (hm1p : n3 m1.predicate = pd)
    (hm1pa : m1.path = none) (hm1t : m1.transform = none)
    (hm2k : m2.key = k2) (hm2p : n3 m2.predicate = pd)
    (hm2pa : m2.path = none) (hm2t : m2.transform = none)
    (hnd : (fields.map Prod.fst).Nodup)
    (hpd : jlookup fields pd = none)
    (hk1p : k1 ≠ pd) (hk2p : k2 ≠ pd)
    (hv1 : jlookup fields k1 = some v1) (hv1n : v1 ≠ .null)
    (hv2 : jlookup fields k2 = some v2) (hv2n : v2 ≠ .null)
    (hflat : ∀ kv ∈ fields, flat1 kv.2 = true) :
    ∃ out, apply_mappings n3 pathEval fuel (.obj fields) [m1, m2] =
        .ok (.obj out) ∧
      jlookup out pd = some (
        if limitVal m1.limit v1 = limitVal m2.limit v2 then
          limitVal m1.limit v1
        else if limitVal m2.limit v2 ∈ jentries (limitVal m1.limit v1) then
          .arr (jentries (limitVal m1.limit v1))
        else
          .arr (jentries (limitVal m1.limit v1) ++ [limitVal m2.limit v2])) ∧
      ((jentries (limitVal m1.limit v1)).Nodup →
        ∀ w, jlookup out pd = some w → (jentries w).Nodup) := by
  have hpdmem : pd ∉ fields.map Prod.fst := (jlookup_none_iff _ _).mp hpd
  set v1' := limitVal m1.limit v1 with hv1'
  set v2' := limitVal m2.limit v2 with hv2'
  -- first mapping installs v1' at the predicate
  have hphase1 := applyMappingVal_flatobj k1 pd m1.limit fuel fields v1 hf
    hnd hk1p hv1 hv1n (fun kv hkv => Or.inr (hflat kv hkv)) (by
      intro o ho
      rw [hpd] at ho
      exact absurd ho (by simp))
  rw [hpd] at hphase1
  have hmerge1 : mergeVal none v1' = v1' := rfl
  rw [hmerge1] at hphase1
  have hfields1 : jset fields pd v1' = fields ++ [(pd, v1')] :=
    jset_of_none _ _ _ hpd
  rw [hfields1] at hphase1
  -- facts about the intermediate object
  have hv1fl : flat1 v1 = true := hflat (k1, v1) (jlookup_mem _ _ _ hv1)
  have hv1'fl : flat1 v1' = true := flat1_limitVal _ _ hv1fl
  have hlook1pd : jlookup (fields ++ [(pd, v1')]) pd = some v1' := by
    rw [jlookup_append_right _ _ _ hpd]
    simp [jlookup]
  have hnd1 : ((fields ++ [(pd, v1')]).map Prod.fst).Nodup := by
    rw [List.map_append]
    simp [List.nodup_append, hnd, hpdmem]
  -- second mapping merges v2' with the existing v1'
  have hphase2 := applyMappingVal_flatobj k2 pd m2.limit fuel
    (fields ++ [(pd, v1')]) v2 hf hnd1 hk2p
    (jlookup_append_left _ _ _ _ hv2) hv2n
    (by
      intro kv hkv
      rcases List.mem_append.mp hkv with hkv | hkv
      · exact Or.inr (hflat kv hkv)
      · simp only [List.mem_singleton] at hkv
        rw [hkv]
        exact Or.inl rfl)
    (by
      intro o ho
      rw [hlook1pd] at ho
      injection ho with ho
      rw [← ho]
      exact flat2_of_flat1 _ hv1'fl)
  rw [hlook1pd] at hphase2
  refine ⟨jset (fields ++ [(pd, v1')]) pd (mergeVal (some v1') v2'),
    ?_, ?_, ?_⟩
  · -- run the two mappings through the `apply_mappings` wrapper
    simp only [apply_mappings, JValue.isObj, not_true, and_false,
      ite_false, List.foldlM, hm1pa, hm2pa, hm1p, hm2p, hm1k, hm2k,
      hm1t, hm2t, hphase1, hphase2]
    simp only [bind, Except.bind, hphase2, pure, Except.pure]
  · rw [jlookup_jset_self]
    rfl
  · intro hnod w hw
    rw [jlookup_jset_self] at hw
    injection hw with hw
    rw [← hw]
    simp only [mergeVal]
    by_cases he : v1' = v2'
    · rw [if_pos he]
      exact hnod
    · rw [if_neg he]
      by_cases hmem : v2' ∈ jentries v1'
      · rw [if_pos hmem]
        exact hnod
      · rw [if_neg hmem]
        show (jentries v1' ++ [v2']).Nodup
        rw [List.nodup_append]
        refine ⟨hnod, List.nodup_singleton _, ?_⟩
        intro x hx hx2
        simp only [List.mem_singleton] at hx2
        exact hmem (hx2 ▸ hx)

/-- Claim C5, counterexample to the claim as stated: mapping the two
different source fields `k1` and `k2`, whose (overlapping, indeed equal)
list values each contain the value `0` twice, onto the same target
predicate leaves the duplicated list installed verbatim at the predicate,
so the entries at the predicate are `[0, 0]` — duplicate entries do occur.
-/
theorem c5_counterexample :
    apply_mappings id (fun _ _ => []) 10
        (.obj [("k1", .arr [.i 0, .i 0]), ("k2", .arr [.i 0, .i 0])])
        [⟨"k1", "pr", none, none, false⟩, ⟨"k2", "pr", none, none, false⟩] =
      .ok (.obj [("k1", .arr [.i 0, .i 0]), ("k2", .arr [.i 0, .i 0]),
        ("pr", .arr [.i 0, .i 0])]) ∧
    jentries (.arr [JValue.i 0, JValue.i 0]) = [JValue.i 0, JValue.i 0] ∧
    ¬ ([JValue.i 0, JValue.i 0].Nodup) := by
  refine ⟨by decide, by decide, by decide⟩

/-- Claim C5, witness: the amended theorem applied to the concrete flat
object with scalar fields 1 and 2 both mapped onto predicate `pr`. -/
theorem c5_witness :
    ∃ out, apply_mappings id (fun _ _ => []) 4
        (.obj [("k1", .i 1), ("k2", .i 2)])
        [⟨"k1", "pr", none, none, false⟩, ⟨"k2", "pr", none, none, false⟩] =
        .ok (.obj out) ∧
      jlookup out "pr" = some (
        if limitVal false (.i 1) = limitVal false (.i 2) then
          limitVal false (.i 1)
        else if limitVal false (.i 2) ∈ jentries (limitVal false (.i 1)) then
          .arr (jentries (limitVal false (.i 1)))
        else
          .arr (jentries (limitVal false (.i 1)) ++
            [limitVal false (.i 2)])) ∧
      ((jentries (limitVal false (.i 1))).Nodup →
        ∀ w, jlookup out "pr" = some w → (jentries w).Nodup) :=
  c5_apply_mappings_merges_dedup id (fun _ _ => []) 4
    [("k1", .i 1), ("k2", .i 2)]
    ⟨"k1", "pr", none, none, false⟩ ⟨"k2", "pr", none, none, false⟩
    "k1" "k2" "pr" (.i 1) (.i 2)
    (by decide) rfl rfl rfl rfl rfl rfl rfl rfl
    (by decide) (by decide) (by decide) (by decide)
    (by decide) (by decide) (by decide) (by decide) (by decide)

/-! ### Datetime coercion (`parse_term`, proxy.py lines 127-148)

`float`, `isodate.parse_datetime` and `email.utils.parsedate_tz` /
`mktime_tz` are external libraries; they are modelled here as executable
parsers over their standard input formats (decimal epoch seconds,
ISO-8601 extended format, RFC-822 dates), restricted to whole seconds.  A
Python `datetime` value is a wall-clock reading plus an optional utc
offset (aware values); `datetime.utcfromtimestamp` yields the naive UTC
wall clock, while `datetime.fromtimestamp` yields the naive wall clock of
the process-local timezone, whose offset in seconds is the `off`
parameter threaded through the model. -/

/-- A Python `datetime`: the wall-clock reading (as seconds since epoch of
that reading taken as UTC) plus the utc offset of aware values. -/
structure PyDateTime where
  wall : Int
  tz : Option Int
  deriving DecidableEq

def digitVal (c : Char) : Nat := c.toNat - 48

/-- Days since 1970-01-01 of a civil date (Gregorian, proleptic). -/
def daysFromCivil (y m d : Nat) : Int :=
  let yy := if m ≤ 2 then y - 1 else y
  let era := yy / 400
  let yoe := yy % 400
  let mp := (m + 9) % 12
  let doy := (153 * mp + 2) / 5 + d - 1
  let doe := yoe * 365 + yoe / 4 - yoe / 100 + doy
  (era : Int) * 146097 + (doe : Int) - 719468

/-- Epoch seconds of a civil date-time read as UTC. -/
def dateToEpoch (y mo d h mi s : Nat) : Int :=
  daysFromCivil y mo d * 86400 + ((h * 3600 + mi * 60 + s : Nat) : Int)

/-- All-digits decimal parse (at least one digit). -/
def parseDigitsAll (cs : List Char) : Option Nat :=
  if cs ≠ [] ∧ cs.all Char.isDigit then
    some (cs.foldl (fun a c => a * 10 + digitVal c) 0)
  else none

/-- Python `float(s)` restricted to whole-second values: an optional sign
followed by decimal digits. -/
def parseFloatInt (cs : List Char) : Option Int :=
  match cs with
  | '-' :: rest => (parseDigitsAll rest).map (fun n => -(n : Int))
  | _ => (parseDigitsAll cs).map (fun n => (n : Int))

/-- Trailing timezone designator of an ISO-8601 datetime. -/
def parseIsoTz : List Char → Option (Option Int)
  | [] => some none
  | ['Z'] => some (some 0)
  | ['+', h1, h2, ':', m1, m2] =>
      if [h1, h2, m1, m2].all Char.isDigit then
        some (some (((10 * digitVal h1 + digitVal h2) * 3600 +
          (10 * digitVal m1 + digitVal m2) * 60 : Nat) : Int))
      else none
  | ['-', h1, h2, ':', m1, m2] =>
      if [h1, h2, m1, m2].all Char.isDigit then
        some (some (-(((10 * digitVal h1 + digitVal h2) * 3600 +
          (10 * digitVal m1 + digitVal m2) * 60 : Nat) : Int)))
      else none
  | _ => none

/-- `isodate.parse_datetime` on the extended format
`YYYY-MM-DDTHH:MM:SS` with an optional timezone designator; returns the
wall clock and, for aware inputs, the offset. -/
def parseISO (cs : List Char) : Option (Int × Option Int) :=
  match cs with
  | y1 :: y2 :: y3 :: y4 :: '-' :: m1 :: m2 :: '-' :: d1 :: d2 :: 'T' ::
      h1 :: h2 :: ':' :: i1 :: i2 :: ':' :: s1 :: s2 :: rest =>
      if [y1, y2, y3, y4, m1, m2, d1, d2, h1, h2, i1, i2, s1, s2].all
          Char.isDigit then
        let y := 1000 * digitVal y1 + 100 * digitVal y2 + 10 * digitVal y3 +
          digitVal y4
        let mo := 10 * digitVal m1 + digitVal m2
        let d := 10 * digitVal d1 + digitVal d2
        let h := 10 * digitVal h1 + digitVal h2
        let mi := 10 * digitVal i1 + digitVal i2
        let s := 10 * digitVal s1 + digitVal s2
        if 1 ≤ mo ∧ mo ≤ 12 ∧ 1 ≤ d ∧ d ≤ 31 ∧ h ≤ 23 ∧ mi ≤ 59 ∧
            s ≤ 59 then
          (parseIsoTz rest).map (fun tz => (dateToEpoch y mo d h mi s, tz))
        else none
      else none
  | _ => none

/-- Three-letter month abbreviation of RFC-822 dates. -/
def month3 : List Char → Option Nat
  | ['J', 'a', 'n'] => some 1
  | ['F', 'e', 'b'] => some 2
  | ['M', 'a', 'r'] => some 3
  | ['A', 'p', 'r'] => some 4
  | ['M', 'a', 'y'] => some 5
  | ['J', 'u', 'n'] => some 6
  | ['J', 'u', 'l'] => some 7
  | ['A', 'u', 'g'] => some 8
  | ['S', 'e', 'p'] => some 9
  | ['O', 'c', 't'] => some 10
  | ['N', 'o', 'v'] => some 11
  | ['D', 'e', 'c'] => some 12
  | _ => none

/-- One- or two-digit day of month. -/
def readDay : List Char → Option (Nat × List Char)
  | d1 :: d2 :: rest =>
      if d1.isDigit then
        if d2.isDigit then some (10 * digitVal d1 + digitVal d2, rest)
        else some (digitVal d1, d2 :: rest)
      else none
  | _ => none

/-- Trailing numeric timezone (` +HHMM` / ` -HHMM`) of an RFC-822 date. -/
def parseRfcTz : List Char → Option (Option Int)
  | [] => some none
  | [' ', '+', h1, h2, m1, m2] =>
      if [h1, h2, m1, m2].all Char.isDigit then
        some (some (((10 * digitVal h1 + digitVal h2) * 3600 +
          (10 * digitVal m1 + digitVal m2) * 60 : Nat) : Int))
      else none
  | [' ', '-', h1, h2, m1, m2] =>
      if [h1, h2, m1, m2].all Char.isDigit then
        some (some (-(((10 * digitVal h1 + digitVal h2) * 3600 +
          (10 * digitVal m1 + digitVal m2) * 60 : Nat) : Int)))
      else none
  | _ => none

/-- `email.utils.parsedate_tz` on `[Www, ]D Mon YYYY HH:MM:SS[ +HHMM]`:
returns the wall clock and the parsed offset when the date carries one. -/
def parseRFC (cs : List Char) : Option (Int × Option Int) :=
  let cs1 := match cs with
    | a :: b :: c :: ',' :: ' ' :: rest =>
        if a.isAlpha ∧ b.isAlpha ∧ c.isAlpha then rest
        else a :: b :: c :: ',' :: ' ' :: rest
    | other => other
  match readDay cs1 with
  | none => none
  | some (d, rest1) =>
    match rest1 with
    | ' ' :: mc1 :: mc2 :: mc3 :: ' ' :: y1 :: y2 :: y3 :: y4 :: ' ' ::
        h1 :: h2 :: ':' :: i1 :: i2 :: ':' :: s1 :: s2 :: rest2 =>
        match month3 [mc1, mc2, mc3] with
        | none => none
        | some mo =>
            if [y1, y2, y3, y4, h1, h2, i1, i2, s1, s2].all Char.isDigit
                then
              let y := 1000 * digitVal y1 + 100 * digitVal y2 +
                10 * digitVal y3 + digitVal y4
              let h := 10 * digitVal h1 + digitVal h2
              let mi := 10 * digitVal i1 + digitVal i2
              let s := 10 * digitVal s1 + digitVal s2
              if 1 ≤ d ∧ d ≤ 31 ∧ h ≤ 23 ∧ mi ≤ 59 ∧ s ≤ 59 then
                (parseRfcTz rest2).map
                  (fun tz => (dateToEpoch y mo d h mi s, tz))
              else none
            else none
    | _ => none

/-- The datetime coercion chain of `parse_term` (proxy.py lines 132-141):
first `float` plus `datetime.utcfromtimestamp` (a naive UTC wall clock),
then `isodate.parse_datetime` (naive or aware as written), then
`parsedate_tz` plus `mktime_tz` plus `datetime.fromtimestamp` — the last
converts the instant into the naive wall clock of the process-local
timezone `off`.  A date none of the three parsers accepts raises. -/
def parseDateTimeLit (off : Int) (cs : List Char) : Except Unit PyDateTime :=
  match parseFloatInt cs with
  | some t => .ok ⟨t, none⟩
  | none =>
    match parseISO cs with
    | some (w, tz) => .ok ⟨w, tz⟩
    | none =>
      match parseRFC cs with
      | some (w, some z) => .ok ⟨w - z + off, none⟩
      | some (w, none) => .ok ⟨w, none⟩
      | none => .error ()

/-- The instant a Python datetime denotes under Python's own convention:
aware values subtract their recorded offset, naive values are read in the
process-local timezone `off` (as `datetime.timestamp()` does). -/
def instantOf (off : Int) (d : PyDateTime) : Int :=
  match d.tz with
  | some z => d.wall - z
  | none => d.wall - off

/-- Claim C7, counterexample to the claim as stated: under a non-UTC
process-local timezone (offset 3600 s), the datetime literal "0" (epoch
seconds) and the RFC-822 literal "Thu, 01 Jan 1970 00:00:00 +0000" denote
the same moment (the epoch), yet the coercion chain materializes them to
different datetime values denoting different instants: the epoch branch
uses `utcfromtimestamp` (UTC wall clock) while the RFC-822 branch uses
`fromtimestamp` (local wall clock). -/
theorem c7_counterexample :
    parseDateTimeLit 3600 "0".toList = .ok ⟨0, none⟩ ∧
    parseDateTimeLit 3600 "Thu, 01 Jan 1970 00:00:00 +0000".toList =
      .ok ⟨3600, none⟩ ∧
    (⟨0, none⟩ : PyDateTime) ≠ ⟨3600, none⟩ ∧
    instantOf 3600 ⟨0, none⟩ ≠ instantOf 3600 ⟨3600, none⟩ := by
  exact ⟨by decide, by decide, by decide, by decide⟩

/-- Claim C7 (amended): the materializer attempts coercion of a declared
datetime literal first as a numeric epoch timestamp, then as an ISO-8601
string, then as an RFC-822 date, in that fixed order, taking the first
that parses; and when the process-local timezone is UTC, an epoch form, an
ISO form and an RFC-822 form that denote the same moment `t` all
materialize to datetimes denoting that same instant.  (Under a non-UTC
local timezone the epoch and RFC-822 branches disagree, see the
counterexample.) -/
theorem c7_datetime_fallback_roundtrip
    (t w2 w3 : Int) (tz2 tz3 : Option Int) (s1 s2 s3 : List Char)
    (h1 : parseFloatInt s1 = some t)
    (h2f : parseFloatInt s2 = none) (h2 : parseISO s2 = some (w2, tz2))
    (h2d : w2 - tz2.getD 0 = t)
    (h3f : parseFloatInt s3 = none) (h3i : parseISO s3 = none)
    (h3 : parseRFC s3 = some (w3, tz3)) (h3d : w3 - tz3.getD 0 = t) :
    ∃ d1 d2 d3,
      parseDateTimeLit 0 s1 = .ok d1 ∧ parseDateTimeLit 0 s2 = .ok d2 ∧
      parseDateTimeLit 0 s3 = .ok d3 ∧
      instantOf 0 d1 = t ∧ instantOf 0 d2 = t ∧ instantOf 0 d3 = t := by
  have hd1 : parseDateTimeLit 0 s1 = .ok ⟨t, none⟩ := by
    unfold parseDateTimeLit
    rw [h1]
  have hd2 : parseDateTimeLit 0 s2 = .ok ⟨w2, tz2⟩ := by
    unfold parseDateTimeLit
    rw [h2f, h2]
  have hi2 : instantOf 0 (⟨w2, tz2⟩ : PyDateTime) = t := by
    cases tz2 with
    | none =>
        simp only [Option.getD_none] at h2d
        simp only [instantOf]
        omega
    | some z =>
        simp only [Option.getD_some] at h2d
        simp only [instantOf]
        omega
  cases tz3 with
  | none =>
      simp only [Option.getD_none] at h3d
      refine ⟨⟨t, none⟩, ⟨w2, tz2⟩, ⟨w3, none⟩, hd1, hd2, ?_, ?_, hi2, ?_⟩
      · unfold parseDateTimeLit
        rw [h3f, h3i, h3]
      · simp only [instantOf]
        omega
      · simp only [instantOf]
        omega
  | some z =>
      simp only [Option.getD_some] at h3d
      refine ⟨⟨t, none⟩, ⟨w2, tz2⟩, ⟨w3 - z + 0, none⟩, hd1, hd2, ?_, ?_,
        hi2, ?_⟩
      · unfold parseDateTimeLit
        rw [h3f, h3i, h3]
      · simp only [instantOf]
        omega
      · simp only [instantOf]
        omega

/-- Claim C7, witness: the amended theorem at the three concrete forms of
the moment 86400 s after the epoch. -/
theorem c7_witness :
    ∃ d1 d2 d3,
      parseDateTimeLit 0 "86400".toList = .ok d1 ∧
      parseDateTimeLit 0 "1970-01-02T00:00:00Z".toList = .ok d2 ∧
      parseDateTimeLit 0 "Fri, 02 Jan 1970 00:00:00 +0000".toList =
        .ok d3 ∧
      instantOf 0 d1 = 86400 ∧ instantOf 0 d2 = 86400 ∧
      instantOf 0 d3 = 86400 :=
  c7_datetime_fallback_roundtrip 86400 86400 86400 (some 0) (some 0)
    "86400".toList "1970-01-02T00:00:00Z".toList
    "Fri, 02 Jan 1970 00:00:00 +0000".toList
    (by decide) (by decide) (by decide) (by decide)
    (by decide) (by decide) (by decide) (by decide)

/-! ### RDF terms and the materializer `ld_triples`
(proxy.py lines 124-165) -/

/-- The value of an RDF literal as the proxy produces them: strings,
best-effort numbers, and coerced datetimes. -/
inductive LitVal where
  | str : String → LitVal
  | int : Int → LitVal
  | dt : PyDateTime → LitVal
  deriving DecidableEq

/-- An rdflib term: URI reference, blank node, or literal with optional
datatype. -/
inductive Term where
  | uri : String → Term
  | bnode : String → Term
  | lit : LitVal → Option String → Term
  deriving DecidableEq

/-- A term of pyld's normalized output: `{'type': ..., 'value': ...,
'datatype'?}`. -/
inductive NTerm where
  | iri : String → NTerm
  | lit : String → Option String → NTerm
  | blank : String → NTerm
  deriving DecidableEq

abbrev Triple := Term × Term × Term
abbrev NTriple := NTerm × NTerm × NTerm
abbrev Graph := List Triple

/-- rdflib's `Graph.add`: a set-semantics insert (duplicate triples do not
multiply). -/
def addT (g : Graph) (t : Triple) : Graph := if t ∈ g then g else g ++ [t]

def xsdDateTime : String := "http://www.w3.org/2001/XMLSchema#dateTime"

def rdfsLiteral : String := "http://www.w3.org/2000/01/rdf-schema#Literal"

/-- Python `'a:b:c'.split(':')`. -/
def splitColon : List Char → List (List Char)
  | [] => [[]]
  | c :: rest =>
      if c = ':' then [] :: splitColon rest
      else
        match splitColon rest with
        | [] => [[c]]
        | seg :: segs => (c :: seg) :: segs

/-- `term['value'].split(':')[1]` of the blank branch of `parse_term`; a
value with no colon raises (`IndexError`), hence the option. -/
def bidOf (v : String) : Option String :=
  match splitColon v.toList with
  | _ :: seg :: _ => some (String.mk seg)
  | _ => none

/-- First-match lookup in the blank-identifier map. -/
def blookup (m : List (String × String)) (k : String) : Option String :=
  match m with
  | [] => none
  | (k', v) :: rest => if k' = k then some v else blookup rest k

/-- `shortuuid.uuid()` modelled as an injective fresh-name source drawn
from a session counter. -/
def freshName (n : Nat) : String :=
  String.mk ('g' :: 'b' :: List.replicate n 'z')

theorem freshName_inj (n m : Nat) (h : freshName n = freshName m) :
    n = m := by
  unfold freshName at h
  injection h with h
  injection h with h1 h
  injection h with h2 h
  have := congrArg List.length h
  simpa using this

/-- The blank-identifier renaming state of one `ld_triples` call: the
`bid_map` dict plus the session-wide fresh-name counter. -/
structure BidState where
  map : List (String × String)
  ctr : Nat
  deriving DecidableEq

/-- The literal branch of `parse_term` (proxy.py lines 130-148): datetime
datatypes run the coercion chain; the generic literal datatype gets a
best-effort numeric coercion and loses its datatype annotation; everything
else stays a string literal under its declared datatype. -/
def parseLitTerm (off : Int) (v : String) (dt : Option String) :
    Except Unit Term :=
  if dt = some xsdDateTime then
    match parseDateTimeLit off v.toList with
    | .error e => .error e
    | .ok d => .ok (.lit (.dt d) dt)
  else if dt = some rdfsLiteral then
    match parseFloatInt v.toList with
    | some n => .ok (.lit (.int n) none)
    | none => .ok (.lit (.str v) none)
  else .ok (.lit (.str v) dt)

/-- `parse_term` (proxy.py lines 127-153): IRIs become URI references;
literals are coerced; a blank identifier is renamed through the per-call
`bid_map`, drawing a fresh stable name from the session counter on first
sight.  A datetime no parser accepts, or a blank value without a colon,
raises. -/
def parse_term (off : Int) (st : BidState) :
    NTerm → Except Unit (Term × BidState)
  | .iri v => .ok (.uri v, st)
  | .lit v dt =>
      match parseLitTerm off v dt with
      | .error e => .error e
      | .ok r => .ok (r, st)
  | .blank v =>
      match bidOf v with
      | none => .error ()
      | some bid =>
        match blookup st.map bid with
        | some name => .ok (.bnode name, st)
        | none =>
            .ok (.bnode (freshName st.ctr),
              ⟨st.map ++ [(bid, freshName st.ctr)], st.ctr + 1⟩)

/-- The triple loop of `ld_triples` (proxy.py lines 159-163): parse
subject, predicate and object in order against the shared renaming state
and add each triple to the graph.  A raised coercion error aborts the
loop, leaving the triples added so far in the graph (the error value). -/
def ldTriplesCore (off : Int) :
    List NTriple → Graph → BidState →
    Except (Graph × BidState) (Graph × BidState)
  | [], g, st => .ok (g, st)
  | (t1, t2, t3) :: rest, g, st =>
      match parse_term off st t1 with
      | .error _ => .error (g, st)
      | .ok (s, st1) =>
        match parse_term off st1 t2 with
        | .error _ => .error (g, st1)
        | .ok (p, st2) =>
          match parse_term off st2 t3 with
          | .error _ => .error (g, st2)
          | .ok (o, st3) => ldTriplesCore off rest (addT g (s, p, o)) st3

/-- `ld_triples` (proxy.py lines 124-165): the input document has already
passed through `jsonld.normalize` (external pyld, supplied as an oracle by
the caller), so the function consumes the normalized default-graph triple
list; each call starts with an empty `bid_map` while the fresh-name
counter is session-wide. -/
def ld_triples (off : Int) (norm : List NTriple) (g : Graph) (ctr : Nat) :
    Except (Graph × BidState) (Graph × BidState) :=
  ldTriplesCore off norm g ⟨[], ctr⟩

/-! ### Blank-node identity through one and across several calls -/

theorem blookup_append_left (m ext : List (String × String)) (k v : String)
    (h : blookup m k = some v) : blookup (m ++ ext) k = some v := by
  induction m with
  | nil => simp [blookup] at h
  | cons kv rest ih =>
      by_cases hk : kv.1 = k
      · simp only [blookup, hk, if_pos] at h
        simpa [blookup, hk] using h
      · simp only [blookup, hk, if_neg, if_false] at h
        simpa [blookup, hk] using ih h

theorem blookup_append_right (m ext : List (String × String)) (k : String)
    (h : blookup m k = none) : blookup (m ++ ext) k = blookup ext k := by
  induction m with
  | nil => simp
  | cons kv rest ih =>
      by_cases hk : kv.1 = k
      · simp [blookup, hk] at h
      · simp only [blookup, hk, if_neg, if_false] at h
        simpa [blookup, hk] using ih h

/-- The renaming state only grows during a call: the map is extended at
the end, the counter never decreases, and every new entry carries a fresh
name drawn from the counter interval the call consumed. -/
def mapExtends (st st' : BidState) : Prop :=
  (∃ ext, st'.map = st.map ++ ext) ∧ st.ctr ≤ st'.ctr ∧
    (∀ bn ∈ st'.map, bn ∈ st.map ∨
      ∃ k, st.ctr ≤ k ∧ k < st'.ctr ∧ bn.2 = freshName k)

theorem mapExtends_refl (st : BidState) : mapExtends st st := by
  refine ⟨⟨[], by simp⟩, le_refl _, ?_⟩
  intro bn hbn
  exact Or.inl hbn

theorem mapExtends_trans (s1 s2 s3 : BidState) (h12 : mapExtends s1 s2)
    (h23 : mapExtends s2 s3) : mapExtends s1 s3 := by
  obtain ⟨⟨e1, he1⟩, hc1, hm1⟩ := h12
  obtain ⟨⟨e2, he2⟩, hc2, hm2⟩ := h23
  refine ⟨⟨e1 ++ e2, by rw [he2, he1, List.append_assoc]⟩,
    le_trans hc1 hc2, ?_⟩
  intro bn hbn
  rcases hm2 bn hbn with hin | ⟨k, hk1, hk2, hk3⟩
  · rcases hm1 bn hin with hin' | ⟨k, hk1, hk2, hk3⟩
    · exact Or.inl hin'
    · exact Or.inr ⟨k, hk1, lt_of_lt_of_le hk2 hc2, hk3⟩
  · exact Or.inr ⟨k, le_trans hc1 hk1, hk2, hk3⟩

theorem mapExtends_stable (st st' : BidState) (b n : String)
    (h : mapExtends st st') (hb : blookup st.map b = some n) :
    blookup st'.map b = some n := by
  obtain ⟨⟨ext, hext⟩, _, _⟩ := h
  rw [hext]
  exact blookup_append_left _ _ _ _ hb

theorem parse_term_extends (off : Int) (st st' : BidState) (t : NTerm)
    (r : Term) (h : parse_term off st t = .ok (r, st')) :
    mapExtends st st' := by
  cases t with
  | iri v =>
      simp only [parse_term] at h
      injection h with h
      injection h with h1 h2
      rw [← h2]
      exact mapExtends_refl st
  | lit v dt =>
      simp only [parse_term] at h
      split at h
      · simp at h
      · injection h with h
        injection h with h1 h2
        rw [← h2]
        exact mapExtends_refl st
  | blank v =>
      simp only [parse_term] at h
      split at h
      · simp at h
      · split at h
        · injection h with h
          injection h with h1 h2
          rw [← h2]
          exact mapExtends_refl st
        · injection h with h
          injection h with h1 h2
          rw [← h2]
          refine ⟨⟨_, rfl⟩, Nat.le_succ _, ?_⟩
          intro bn hbn
          rcases List.mem_append.mp hbn with hin | hin
          · exact Or.inl hin
          · simp only [List.mem_singleton] at hin
            refine Or.inr ⟨st.ctr, le_refl _, Nat.lt_succ_self _, ?_⟩
            rw [hin]

/-- The pure per-term conversion a finished call is equivalent to: blanks
go through one fixed assignment. -/
def convTerm (off : Int) (assign : String → String) :
    NTerm → Except Unit Term
  | .iri v => .ok (.uri v)
  | .lit v dt => parseLitTerm off v dt
  | .blank v =>
      match bidOf v with
      | none => .error ()
      | some bid => .ok (.bnode (assign bid))

theorem parse_term_conv (off : Int) (st st' stF : BidState) (t : NTerm)
    (r : Term) (h : parse_term off st t = .ok (r, st'))
    (hext : mapExtends st' stF) :
    convTerm off (fun b => (blookup stF.map b).getD "") t = .ok r := by
  cases t with
  | iri v =>
      simp only [parse_term] at h
      injection h with h
      injection h with h1 h2
      simp [convTerm, h1]
  | lit v dt =>
      simp only [parse_term] at h
      split at h
      · simp at h
      · next rr hl =>
          injection h with h
          injection h with h1 h2
          simp [convTerm, hl, h1]
  | blank v =>
      simp only [parse_term] at h
      split at h
      · simp at h
      · next bid hb =>
          split at h
          · next name hl =>
              injection h with h
              injection h with h1 h2
              have hstf : blookup stF.map bid = some name := by
                refine mapExtends_stable st' stF bid name hext ?_
                rw [← h2]
                exact hl
              simp [convTerm, hb, hstf, h1]
          · next hl =>
              injection h with h
              injection h with h1 h2
              have hst' : blookup st'.map bid = some (freshName st.ctr) := by
                rw [← h2]
                simp only
                rw [blookup_append_right _ _ _ hl]
                simp [blookup]
              have hstf : blookup stF.map bid = some (freshName st.ctr) :=
                mapExtends_stable st' stF bid _ hext hst'
              simp [convTerm, hb, hstf, h1]

/-- The pure triple conversion under one fixed blank assignment. -/
def convTriple (off : Int) (assign : String → String) (tr : NTriple) :
    Except Unit Triple :=
  match convTerm off assign tr.1 with
  | .error e => .error e
  | .ok s =>
    match convTerm off assign tr.2.1 with
    | .error e => .error e
    | .ok p =>
      match convTerm off assign tr.2.2 with
      | .error e => .error e
      | .ok o => .ok (s, p, o)

/-- A finished run of the triple loop behaves as the pure conversion of
every normalized triple under the single final blank assignment, its
results folded into the graph; and the renaming state only grows. -/
theorem ldTriplesCore_conv (off : Int) (norm : List NTriple)
    (g g' : Graph) (st st' : BidState)
    (h : ldTriplesCore off norm g st = .ok (g', st')) :
    mapExtends st st' ∧
    ∃ rts, norm.mapM (convTriple off
        (fun b => (blookup st'.map b).getD "")) = .ok rts ∧
      g' = rts.foldl addT g := by
  induction norm generalizing g st with
  | nil =>
      simp only [ldTriplesCore] at h
      injection h with h
      injection h with hg hst
      subst hg hst
      exact ⟨mapExtends_refl st, [], rfl, rfl⟩
  | cons tr rest ih =>
      obtain ⟨t1, t2, t3⟩ := tr
      simp only [ldTriplesCore] at h
      split at h
      · simp at h
      · next s st1 hp1 =>
          split at h
          · simp at h
          · next p st2 hp2 =>
              split at h
              · simp at h
              · next o st3 hp3 =>
                  obtain ⟨hext3, rts', hmap', hg'⟩ := ih _ _ h
                  have hext2 : mapExtends st2 st' :=
                    mapExtends_trans _ _ _
                      (parse_term_extends off st2 st3 t3 o hp3) hext3
                  have hext1 : mapExtends st1 st' :=
                    mapExtends_trans _ _ _
                      (parse_term_extends off st1 st2 t2 p hp2) hext2
                  have hext0 : mapExtends st st' :=
                    mapExtends_trans _ _ _
                      (parse_term_extends off st st1 t1 s hp1) hext1
                  refine ⟨hext0, (s, p, o) :: rts', ?_, ?_⟩
                  · rw [List.mapM_cons]
                    have hc1 := parse_term_conv off st st1 st' t1 s hp1 hext1
                    have hc2 := parse_term_conv off st1 st2 st' t2 p hp2 hext2
                    have hc3 := parse_term_conv off st2 st3 st' t3 o hp3 hext3
                    have hct : convTriple off
                        (fun b => (blookup st'.map b).getD "") (t1, t2, t3) =
                        .ok (s, p, o) := by
                      simp [convTriple, hc1, hc2, hc3]
                    rw [hct, hmap']
                    rfl
                  · rw [List.foldl_cons]
                    exact hg'

/-- Claim C6: within a single call to the materializer, every occurrence
of one normalized blank-node identifier is converted to the same blank
node — a finished call is equivalent to converting every triple under one
fixed assignment (lookup in the call's final `bid_map`); and across two
separate calls (the second continuing the session counter), the names the
two calls assign never collide, so blank identities from distinct calls
stay apart even for the same normalized identifier. -/
theorem c6_blank_node_identity (off : Int) (n1 n2 : List NTriple)
    (g0 g1 g2 : Graph) (c0 : Nat) (st1 st2 : BidState)
    (h1 : ld_triples off n1 g0 c0 = .ok (g1, st1))
    (h2 : ld_triples off n2 g1 st1.ctr = .ok (g2, st2)) :
    (∃ rts, n1.mapM (convTriple off
        (fun b => (blookup st1.map b).getD "")) = .ok rts ∧
      g1 = rts.foldl addT g0) ∧
    (∃ rts, n2.mapM (convTriple off
        (fun b => (blookup st2.map b).getD "")) = .ok rts ∧
      g2 = rts.foldl addT g1) ∧
    (∀ b1 m1 b2 m2, (b1, m1) ∈ st1.map → (b2, m2) ∈ st2.map →
      m1 ≠ m2) := by
  obtain ⟨hext1, hconv1⟩ := ldTriplesCore_conv off n1 g0 g1 ⟨[], c0⟩ st1 h1
  obtain ⟨hext2, hconv2⟩ :=
    ldTriplesCore_conv off n2 g1 g2 ⟨[], st1.ctr⟩ st2 h2
  refine ⟨hconv1, hconv2, ?_⟩
  intro b1 m1 b2 m2 hm1 hm2
  obtain ⟨_, hc1, hr1⟩ := hext1
  obtain ⟨_, hc2, hr2⟩ := hext2
  rcases hr1 (b1, m1) hm1 with hin | ⟨k1, hk1a, hk1b, hk1c⟩
  · simp at hin
  rcases hr2 (b2, m2) hm2 with hin | ⟨k2, hk2a, hk2b, hk2c⟩
  · simp at hin
  simp only at hk1c hk2c hk1a hk1b hk2a hk2b
  intro he
  rw [hk1c, hk2c] at he
  have := freshName_inj _ _ he
  omega

/-- Claim C6, witness: two consecutive calls over the same normalized
triple, whose blank identifier `b0` appears twice per call; the first call
assigns it `gb` throughout, the second `gbz`, and the assignments never
collide. -/
theorem c6_witness :
    (∃ rts, [((.blank "_:b0" : NTerm), (.iri "p" : NTerm),
        (.blank "_:b0" : NTerm))].mapM (convTriple 0
        (fun b => (blookup [("b0", "gb")] b).getD "")) = .ok rts ∧
      [((.bnode "gb" : Term), (.uri "p" : Term), (.bnode "gb" : Term))] =
        rts.foldl addT []) ∧
    (∃ rts, [((.blank "_:b0" : NTerm), (.iri "p" : NTerm),
        (.blank "_:b0" : NTerm))].mapM (convTriple 0
        (fun b => (blookup [("b0", "gbz")] b).getD "")) = .ok rts ∧
      [((.bnode "gb" : Term), (.uri "p" : Term), (.bnode "gb" : Term)),
       ((.bnode "gbz" : Term), (.uri "p" : Term), (.bnode "gbz" : Term))] =
        rts.foldl addT
          [((.bnode "gb" : Term), (.uri "p" : Term),
            (.bnode "gb" : Term))]) ∧
    (∀ b1 m1 b2 m2, (b1, m1) ∈ [("b0", "gb")] →
      (b2, m2) ∈ [("b0", "gbz")] → m1 ≠ m2) :=
  c6_blank_node_identity 0
    [(.blank "_:b0", .iri "p", .blank "_:b0")]
    [(.blank "_:b0", .iri "p", .blank "_:b0")]
    [] [(.bnode "gb", .uri "p", .bnode "gb")]
    [(.bnode "gb", .uri "p", .bnode "gb"),
     (.bnode "gbz", .uri "p", .bnode "gbz")]
    0 ⟨[("b0", "gb")], 1⟩ ⟨[("b0", "gbz")], 2⟩
    (by decide) (by decide)

/-! ### Resources and endpoint composition
(proxy.py lines 231-240, `Proxy.compose_endpoints`) -/

/-- An upstream endpoint declaration ("base endpoint"): either
self-contained (a concrete address) or open (`href` is `None`).  `order`
is the declared priority; `tag` keeps distinct declarations with equal
fields apart. -/
structure BaseEndpoint where
  href : Option String
  order : Nat
  tag : Nat
  deriving DecidableEq

/-- A fully-resolved endpoint chain.  `Endpoint.__add__` lives in
`agora_wot.blocks`, which is not under src/.  Modelled from the spec:
composition concatenates each predecessor endpoint with this resource's
endpoint to form a new callable, the predecessor called first — so a
composed endpoint is the list of base endpoints in call order, and
`pred_e + base_e` is `pred_e ++ [base_e]`. -/
abbrev CEndpoint := List BaseEndpoint

/-- A declared rdf type: a URIRef (rendered through the namespace manager
when compared) or an already-compact string. -/
inductive TType where
  | uri : String → TType
  | n3s : String → TType
  deriving DecidableEq

/-- The statically declared description of one resource (a Thing
Description as `describe_resource` consumes it).  `TD` itself lives in
`agora_wot.blocks` (not under src/); the fields are those proxy.py
reads: `td.id`, `td.resource.node`, `td.resource.graph`,
`td.resource.types`, `td.base`, `td.rdf_sources` (their endpoint hrefs)
and `td.vars`. -/
structure TDModel where
  id : String
  node : Term
  graph : List Triple
  types : List TType
  base : List BaseEndpoint
  rdfSources : List String
  vars : List String
  deriving DecidableEq

/-- `Proxy.compose_endpoints` (proxy.py lines 231-240): a base endpoint
with a concrete address is yielded as-is; an open one is composed behind
every fully-resolved endpoint of every dependency predecessor.  A missing
predecessor id raises (`KeyError` on `self.__rdict`); fuel exhaustion
models the unguarded recursion on a cyclic dependency graph blowing the
stack. -/
def compose_endpoints (preds : String → List String)
    (rdict : String → Option TDModel) :
    Nat → TDModel → Except Unit (List CEndpoint)
  | 0, _ => .error ()
  | Nat.succ fuel, r =>
      match r.base.mapM (fun e =>
        match e.href with
        | some _ => (.ok [[e]] : Except Unit (List CEndpoint))
        | none =>
            match (preds r.id).mapM (fun p =>
              match rdict p with
              | none => (.error () : Except Unit (List CEndpoint))
              | some rp =>
                  match compose_endpoints preds rdict fuel rp with
                  | .error er => .error er
                  | .ok lp => .ok (lp.map (fun pe => pe ++ [e]))) with
            | .error er => .error er
            | .ok groups => .ok groups.flatten) with
      | .error er => .error er
      | .ok groups => .ok groups.flatten

/-- Membership in the concatenation of the groups an `Except`-valued
`mapM` produced. -/
theorem exMapM_join_mem {α β : Type} (f : α → Except Unit (List β))
    (xs : List α) (gs : List (List β)) (h : xs.mapM f = .ok gs) (z : β) :
    z ∈ gs.flatten ↔ ∃ x ∈ xs, ∃ g, f x = .ok g ∧ z ∈ g := by
  induction xs generalizing gs with
  | nil =>
      injection h with h
      subst h
      simp
  | cons x xs ih =>
      rw [List.mapM_cons] at h
      cases hx : f x with
      | error e =>
          rw [hx] at h
          have hcontra : (Except.error e : Except Unit (List (List β))) =
            .ok gs := h
          exact absurd hcontra (by simp)
      | ok g =>
          rw [hx] at h
          cases hrest : xs.mapM f with
          | error e =>
              rw [hrest] at h
              have hcontra : (Except.error e : Except Unit (List (List β)))
                = .ok gs := h
              exact absurd hcontra (by simp)
          | ok gs' =>
              rw [hrest] at h
              have hgs : gs = g :: gs' := by
                have : (Except.ok (g :: gs') : Except Unit (List (List β)))
                    = .ok gs := h
                injection this with hh
                exact hh.symm
              subst hgs
              simp only [List.flatten, List.mem_append]
              constructor
              · intro hz
                rcases hz with hz | hz
                · exact ⟨x, List.mem_cons_self _ _, g, hx, hz⟩
                · obtain ⟨x', hx', g', hg', hz'⟩ := (ih gs' hrest).mp hz
                  exact ⟨x', List.mem_cons_of_mem _ hx', g', hg', hz'⟩
              · rintro ⟨x', hx', g', hg', hz'⟩
                rcases List.mem_cons.mp hx' with he | he
                · subst he
                  rw [hx] at hg'
                  injection hg' with hg'
                  subst hg'
                  exact Or.inl hz'
                · exact Or.inr ((ih gs' hrest).mpr ⟨x', he, g', hg', hz'⟩)

theorem exMapM_ok_of_mem {α β : Type} (f : α → Except Unit β)
    (xs : List α) (ys : List β) (h : xs.mapM f = .ok ys) (x : α)
    (hx : x ∈ xs) : ∃ y, f x = .ok y := by
  induction xs generalizing ys with
  | nil => simp at hx
  | cons x' xs ih =>
      rw [List.mapM_cons] at h
      cases hx' : f x' with
      | error e =>
          rw [hx'] at h
          have hcontra : (Except.error e : Except Unit (List β)) =
            .ok ys := h
          exact absurd hcontra (by simp)
      | ok y =>
          rw [hx'] at h
          cases hrest : xs.mapM f with
          | error e =>
              rw [hrest] at h
              have hcontra : (Except.error e : Except Unit (List β)) =
                .ok ys := h
              exact absurd hcontra (by simp)
          | ok ys' =>
              rcases List.mem_cons.mp hx with he | he
              · exact ⟨y, he ▸ hx'⟩
              · exact ih ys' hrest he

/-- Claim C4: under a successful composition, the fully-resolved endpoint
chains of a resource are exactly: each base endpoint with a concrete
address, as-is; and, for each base endpoint without an address, for every
dependency predecessor and every fully-resolved chain of that predecessor,
that chain with this resource's endpoint appended (predecessor called
first).  With multiple predecessors every predecessor path is emitted. -/
theorem c4_compose_endpoints (preds : String → List String)
    (rdict : String → Option TDModel) (fuel : Nat) (r : TDModel)
    (out : List CEndpoint)
    (h : compose_endpoints preds rdict (fuel + 1) r = .ok out)
    (ce : CEndpoint) :
    ce ∈ out ↔
      (∃ e ∈ r.base, e.href ≠ none ∧ ce = [e]) ∨
      (∃ e ∈ r.base, e.href = none ∧ ∃ p ∈ preds r.id, ∃ rp lp,
        rdict p = some rp ∧
        compose_endpoints preds rdict fuel rp = .ok lp ∧
        ∃ pe ∈ lp, ce = pe ++ [e]) := by
  unfold compose_endpoints at h
  split at h
  · exact absurd h (by simp)
  · next groups hgroups =>
      injection h with h
      subst h
      rw [exMapM_join_mem _ _ _ hgroups ce]
      constructor
      · rintro ⟨e, he, g, hg, hce⟩
        split at hg
        · next a heq =>
            injection hg with hg
            subst hg
            simp only [List.mem_singleton] at hce
            exact Or.inl ⟨e, he, by simp [heq], hce⟩
        · next heq =>
            split at hg
            · exact absurd hg (by simp)
            · next igroups higroups =>
                injection hg with hg
                subst hg
                obtain ⟨p, hp, ig, hig, hceig⟩ :=
                  (exMapM_join_mem _ _ _ higroups ce).mp hce
                split at hig
                · exact absurd hig (by simp)
                · next rp hrd =>
                    split at hig
                    · exact absurd hig (by simp)
                    · next lp hlp =>
                        injection hig with hig
                        subst hig
                        obtain ⟨pe, hpe, hce_eq⟩ := List.mem_map.mp hceig
                        exact Or.inr ⟨e, he, heq, p, hp, rp, lp, hrd,
                          hlp, pe, hpe, hce_eq.symm⟩
      · rintro (⟨e, he, hh, hce⟩ |
          ⟨e, he, hh, p, hp, rp, lp, hrd, hlp, pe, hpe, hce⟩)
        · obtain ⟨g, hg⟩ := exMapM_ok_of_mem _ _ _ hgroups e he
          refine ⟨e, he, g, hg, ?_⟩
          split at hg
          · next a heq =>
              injection hg with hg
              subst hg
              simp [hce]
          · next heq => exact absurd heq hh
        · obtain ⟨g, hg⟩ := exMapM_ok_of_mem _ _ _ hgroups e he
          refine ⟨e, he, g, hg, ?_⟩
          split at hg
          · next a heq => simp [hh] at heq
          · next heq =>
              split at hg
              · exact absurd hg (by simp)
              · next igroups higroups =>
                  injection hg with hg
                  subst hg
                  refine (exMapM_join_mem _ _ _ higroups ce).mpr
                    ⟨p, hp, lp.map (fun pe => pe ++ [e]), ?_, ?_⟩
                  · simp only [hrd, hlp]
                  · rw [hce]
                    exact List.mem_map_of_mem _ hpe

/-- Claim C4, witness: a two-resource ecosystem where `B`'s open endpoint
composes behind `A`'s addressed endpoint. -/
theorem c4_witness :
    ([⟨some "http://a", 0, 0⟩, ⟨none, 1, 1⟩] : CEndpoint) ∈
        [[(⟨some "http://a", 0, 0⟩ : BaseEndpoint), ⟨none, 1, 1⟩]] ↔
      (∃ e ∈ (⟨"B", .uri "nB", [], [], [⟨none, 1, 1⟩], [], []⟩ :
          TDModel).base, e.href ≠ none ∧
        ([⟨some "http://a", 0, 0⟩, ⟨none, 1, 1⟩] : CEndpoint) = [e]) ∨
      (∃ e ∈ (⟨"B", .uri "nB", [], [], [⟨none, 1, 1⟩], [], []⟩ :
          TDModel).base, e.href = none ∧
        ∃ p ∈ (fun rid => if rid = "B" then ["A"] else [])
          (⟨"B", .uri "nB", [], [], [⟨none, 1, 1⟩], [], []⟩ :
            TDModel).id, ∃ rp lp,
          (fun rid => if rid = "A" then
              some (⟨"A", .uri "nA", [], [],
                [⟨some "http://a", 0, 0⟩], [], []⟩ : TDModel)
            else if rid = "B" then
              some ⟨"B", .uri "nB", [], [], [⟨none, 1, 1⟩], [], []⟩
            else none) p = some rp ∧
          compose_endpoints
            (fun rid => if rid = "B" then ["A"] else [])
            (fun rid => if rid = "A" then
                some (⟨"A", .uri "nA", [], [],
                  [⟨some "http://a", 0, 0⟩], [], []⟩ : TDModel)
              else if rid = "B" then
                some ⟨"B", .uri "nB", [], [], [⟨none, 1, 1⟩], [], []⟩
              else none) 1 rp = .ok lp ∧
          ∃ pe ∈ lp,
            ([⟨some "http://a", 0, 0⟩, ⟨none, 1, 1⟩] : CEndpoint) =
              pe ++ [e]) :=
  c4_compose_endpoints
    (fun rid => if rid = "B" then ["A"] else [])
    (fun rid => if rid = "A" then
        some (⟨"A", .uri "nA", [], [], [⟨some "http://a", 0, 0⟩], [],
          []⟩ : TDModel)
      else if rid = "B" then
        some ⟨"B", .uri "nB", [], [], [⟨none, 1, 1⟩], [], []⟩
      else none)
    1 ⟨"B", .uri "nB", [], [], [⟨none, 1, 1⟩], [], []⟩
    [[⟨some "http://a", 0, 0⟩, ⟨none, 1, 1⟩]]
    (by decide)
    [⟨some "http://a", 0, 0⟩, ⟨none, 1, 1⟩]

/-! ### Seed Registry (proxy.py lines 169-202, 315-321) -/

/-- An ecosystem root: either a Thing Description (with declared variables
and an id for URL building) or a plain resource description.  The classes
live in `agora_wot.blocks` (not under src/); the fields are those proxy.py
reads on roots: `isinstance(root, TD)`, `root.vars`, `root.id`,
`root.node`, and the declared rdf types of the root's resource. -/
structure RootModel where
  isTD : Bool
  id : String
  node : Term
  types : List String
  vars : List String
  deriving DecidableEq

/-- Set-semantics insert into the seed set (`self.__seeds` is a set). -/
def insertSeed (s : List (Term × String)) (pr : Term × String) :
    List (Term × String) := if pr ∈ s then s else s ++ [pr]

/-- `Proxy.url_for` (proxy.py lines 323-328) on a plain resource id: when
no encoded-argument blob is given and keyword arguments are present they
are encoded first (`encode_rdict`, from agora_wot.utils, an oracle);
the wrapper's URL builder (agora's ResourceWrapper, an oracle) produces
the final URL. -/
def url_for (wrapperUrl : String → Option String → String)
    (encodeR : List (String × LitVal) → String) (tid : String)
    (b64 : Option String) (kwargs : List (String × LitVal)) : String :=
  wrapperUrl tid (match b64, kwargs with
    | none, [] => none
    | none, ks => some (encodeR ks)
    | some b, _ => some b)

/-- `Proxy.instantiate_seed` (proxy.py lines 197-202): a declared root
gets its dereferenceable URI under the given parameters, one seed pair per
declared type is recorded, and the URI is returned; any other argument
leaves the seed set alone and returns nothing. -/
def instantiate_seed (roots : List RootModel) (ns : String → String)
    (wrapperUrl : String → Option String → String)
    (encodeR : List (String × LitVal) → String)
    (seeds : List (Term × String)) (root : RootModel)
    (kwargs : List (String × LitVal)) :
    Option String × List (Term × String) :=
  if root ∈ roots then
    let uri := url_for wrapperUrl encodeR root.id none kwargs
    (some uri,
      root.types.foldl (fun s t => insertSeed s (.uri uri, ns t)) seeds)
  else (none, seeds)

/-- The seed initialization of `Proxy.__init__` (proxy.py lines 184-195):
a TD root declaring variables contributes nothing; a TD root without
variables contributes one pair per declared type under its computed URL;
a plain-resource root contributes one pair per type under its own graph
node. -/
def initSeeds (roots : List RootModel) (ns : String → String)
    (wrapperUrl : String → Option String → String)
    (encodeR : List (String × LitVal) → String) :
    List (Term × String) :=
  roots.foldl (fun s root =>
    if root.isTD then
      if root.vars ≠ [] then s
      else root.types.foldl (fun s t =>
        insertSeed s
          (.uri (url_for wrapperUrl encodeR root.id none []), ns t)) s
    else root.types.foldl (fun s t => insertSeed s (root.node, ns t)) s)
    []

theorem insertSeed_mem (s : List (Term × String)) (x pr : Term × String) :
    pr ∈ insertSeed s x ↔ pr ∈ s ∨ pr = x := by
  unfold insertSeed
  by_cases hx : x ∈ s
  · simp only [hx, if_true]
    constructor
    · exact Or.inl
    · rintro (hp | hp)
      · exact hp
      · exact hp ▸ hx
  · simp [hx]

theorem foldl_insertSeed_mem {α : Type} (f : α → Term × String)
    (ts : List α) (s : List (Term × String)) (pr : Term × String) :
    pr ∈ ts.foldl (fun s t => insertSeed s (f t)) s ↔
      pr ∈ s ∨ ∃ t ∈ ts, pr = f t := by
  induction ts generalizing s with
  | nil => simp
  | cons t ts ih =>
      rw [List.foldl_cons, ih, insertSeed_mem]
      constructor
      · rintro ((hp | hp) | ⟨t', ht', hp⟩)
        · exact Or.inl hp
        · exact Or.inr ⟨t, List.mem_cons_self _ _, hp⟩
        · exact Or.inr ⟨t', List.mem_cons_of_mem _ ht', hp⟩
      · rintro (hp | ⟨t', ht', hp⟩)
        · exact Or.inl (Or.inl hp)
        · rcases List.mem_cons.mp ht' with he | he
          · exact Or.inl (Or.inr (he ▸ hp))
          · exact Or.inr ⟨t', he, hp⟩

/-- Claim C9: called with a declared ecosystem root, `instantiate_seed`
computes the root's dereferenceable URI under the given parameters, adds
one (URI, type) pair to the seed set per declared type, and returns the
URI; called with anything not a declared root it adds nothing and returns
nothing. -/
theorem c9_instantiate_seed (roots : List RootModel) (ns : String → String)
    (wrapperUrl : String → Option String → String)
    (encodeR : List (String × LitVal) → String)
    (seeds : List (Term × String)) (root : RootModel)
    (kwargs : List (String × LitVal)) :
    (root ∈ roots →
      (instantiate_seed roots ns wrapperUrl encodeR seeds root
        kwargs).1 =
        some (url_for wrapperUrl encodeR root.id none kwargs) ∧
      ∀ pr, pr ∈ (instantiate_seed roots ns wrapperUrl encodeR seeds root
          kwargs).2 ↔
        pr ∈ seeds ∨ ∃ t ∈ root.types,
          pr = (.uri (url_for wrapperUrl encodeR root.id none kwargs),
            ns t)) ∧
    (root ∉ roots →
      instantiate_seed roots ns wrapperUrl encodeR seeds root kwargs =
        (none, seeds)) := by
  constructor
  · intro hmem
    unfold instantiate_seed
    rw [if_pos hmem]
    exact ⟨rfl, fun pr => foldl_insertSeed_mem _ _ _ _⟩
  · intro hmem
    unfold instantiate_seed
    simp [hmem]

/-- Claim C9, witness: a one-root ecosystem; the root gets its URI and its
single type pair, and a non-root changes nothing. -/
theorem c9_witness :
    ((instantiate_seed [⟨true, "R1", .uri "nR1", ["T1"], []⟩] id
        (fun tid _ => tid) (fun _ => "") []
        ⟨true, "R1", .uri "nR1", ["T1"], []⟩ []).1 =
      some (url_for (fun tid _ => tid) (fun _ => "") "R1" none []) ∧
      ∀ pr, pr ∈ (instantiate_seed [⟨true, "R1", .uri "nR1", ["T1"], []⟩]
          id (fun tid _ => tid) (fun _ => "") []
          ⟨true, "R1", .uri "nR1", ["T1"], []⟩ []).2 ↔
        pr ∈ ([] : List (Term × String)) ∨
          ∃ t ∈ ["T1"],
            pr = (.uri (url_for (fun tid _ => tid) (fun _ => "") "R1"
              none []), id t)) ∧
    (instantiate_seed [⟨true, "R1", .uri "nR1", ["T1"], []⟩] id
        (fun tid _ => tid) (fun _ => "") []
        ⟨true, "R2", .uri "nR2", ["T2"], []⟩ [] =
      (none, [])) :=
  ⟨(c9_instantiate_seed [⟨true, "R1", .uri "nR1", ["T1"], []⟩] id
      (fun tid _ => tid) (fun _ => "") []
      ⟨true, "R1", .uri "nR1", ["T1"], []⟩ []).1 (by decide),
   (c9_instantiate_seed [⟨true, "R1", .uri "nR1", ["T1"], []⟩] id
      (fun tid _ => tid) (fun _ => "") []
      ⟨true, "R2", .uri "nR2", ["T2"], []⟩ []).2 (by decide)⟩

/-- The seed pairs one root contributes at construction time. -/
def rootItems (ns : String → String)
    (wrapperUrl : String → Option String → String)
    (encodeR : List (String × LitVal) → String) (root : RootModel) :
    List (Term × String) :=
  if root.isTD then
    if root.vars ≠ [] then []
    else root.types.map (fun t =>
      (.uri (url_for wrapperUrl encodeR root.id none []), ns t))
  else root.types.map (fun t => (root.node, ns t))

theorem foldl_insertSeed_list_mem (items : List (Term × String))
    (s : List (Term × String)) (pr : Term × String) :
    pr ∈ items.foldl insertSeed s ↔ pr ∈ s ∨ pr ∈ items := by
  have h := foldl_insertSeed_mem (fun x => x) items s pr
  simpa using h

theorem foldl_items_mem (itemsOf : RootModel → List (Term × String))
    (roots : List RootModel) (s0 : List (Term × String))
    (pr : Term × String) :
    pr ∈ roots.foldl (fun s r => (itemsOf r).foldl insertSeed s) s0 ↔
      pr ∈ s0 ∨ ∃ r ∈ roots, pr ∈ itemsOf r := by
  induction roots generalizing s0 with
  | nil => simp
  | cons r rs ih =>
      rw [List.foldl_cons, ih, foldl_insertSeed_list_mem]
      constructor
      · rintro ((hp | hp) | ⟨r', hr', hp⟩)
        · exact Or.inl hp
        · exact Or.inr ⟨r, List.mem_cons_self _ _, hp⟩
        · exact Or.inr ⟨r', List.mem_cons_of_mem _ hr', hp⟩
      · rintro (hp | ⟨r', hr', hp⟩)
        · exact Or.inl (Or.inl hp)
        · rcases List.mem_cons.mp hr' with he | he
          · exact Or.inl (Or.inr (he ▸ hp))
          · exact Or.inr ⟨r', he, hp⟩

theorem initSeeds_eq_items (roots : List RootModel) (ns : String → String)
    (wrapperUrl : String → Option String → String)
    (encodeR : List (String × LitVal) → String) :
    initSeeds roots ns wrapperUrl encodeR =
      roots.foldl (fun s r =>
        (rootItems ns wrapperUrl encodeR r).foldl insertSeed s) [] := by
  unfold initSeeds
  refine List.foldl_ext _ _ _ ?_
  intro s r hr
  unfold rootItems
  by_cases hTD : r.isTD = true
  · by_cases hv : r.vars ≠ []
    · rw [if_pos hTD, if_pos hTD, if_pos hv, if_pos hv]
      simp
    · rw [if_pos hTD, if_pos hTD, if_neg hv, if_neg hv]
      rw [List.foldl_map]
  · rw [if_neg hTD, if_neg hTD]
    rw [List.foldl_map]

/-- Claim C10: immediately after Proxy construction the seed set contains
exactly: for every root that is a TD without declared variables, one
(URI, type) pair per declared type under its computed dereferenceable URI;
for every plain-resource root, one pair per declared type under its own
graph node; and nothing for TD roots that declare variables. -/
theorem c10_init_seeds (roots : List RootModel) (ns : String → String)
    (wrapperUrl : String → Option String → String)
    (encodeR : List (String × LitVal) → String) (pr : Term × String) :
    pr ∈ initSeeds roots ns wrapperUrl encodeR ↔
      ∃ root ∈ roots,
        ((root.isTD = true ∧ root.vars = [] ∧ ∃ t ∈ root.types,
            pr = (.uri (url_for wrapperUrl encodeR root.id none []),
              ns t)) ∨
          (root.isTD = false ∧ ∃ t ∈ root.types,
            pr = (root.node, ns t))) := by
  rw [initSeeds_eq_items, foldl_items_mem]
  simp only [List.mem_nil_iff, false_or]
  refine exists_congr fun root => and_congr_right fun hmem => ?_
  unfold rootItems
  by_cases hTD : root.isTD = true
  · by_cases hv : root.vars ≠ []
    · rw [if_pos hTD, if_pos hv]
      refine iff_of_false (List.not_mem_nil pr) ?_
      rintro (⟨_, hveq, _⟩ | ⟨hfalse, _⟩)
      · exact hv hveq
      · rw [hTD] at hfalse
        exact absurd hfalse (by simp)
    · rw [if_pos hTD, if_neg hv, List.mem_map]
      have hveq : root.vars = [] := not_not.mp hv
      constructor
      · rintro ⟨t, ht, hp⟩
        exact Or.inl ⟨hTD, hveq, t, ht, hp.symm⟩
      · rintro (⟨_, _, t, ht, hp⟩ | ⟨hfalse, _⟩)
        · exact ⟨t, ht, hp.symm⟩
        · rw [hTD] at hfalse
          exact absurd hfalse (by simp)
  · rw [if_neg hTD, List.mem_map]
    have hTDf : root.isTD = false := Bool.not_eq_true _ ▸ hTD
    constructor
    · rintro ⟨t, ht, hp⟩
      exact Or.inr ⟨by simpa using hTD, t, ht, hp.symm⟩
    · rintro (⟨htrue, _, _⟩ | ⟨_, t, ht, hp⟩)
      · exact absurd htrue hTD
      · exact ⟨t, ht, hp.symm⟩

/-! ### JSON-LD Enricher (`Proxy.enrich`, proxy.py lines 330-394) -/

/-- What the fountain registry returns for a type: its properties and
supertypes (`fountain.get_type`). -/
structure TypeDesc where
  props : List String
  super : List String
  deriving DecidableEq

/-- What the fountain registry returns for a property
(`fountain.get_property`): data vs object kind and its range. -/
structure PropDesc where
  isData : Bool
  range : List String
  deriving DecidableEq

/-- The external type/property registry.  A lookup miss raises in the
caller (no `None` handling in proxy.py), modelled as `Except.error`. -/
structure Fountain where
  getType : String → Option TypeDesc
  getProp : String → Option PropDesc

/-- One `@context` entry: the optional `@type` annotation and the `@id`
it expands to. -/
structure CtxEntry where
  atType : Option String
  atId : String
  deriving DecidableEq

abbrev FieldsT := List (String × JValue)
abbrev CtxT := List (String × CtxEntry)

/-- First-match lookup in the context, mirroring `jlookup`. -/
def clookup (ctx : CtxT) (k : String) : Option CtxEntry :=
  match ctx with
  | [] => none
  | (k', v) :: rest => if k' = k then some v else clookup rest k

/-- In-place set in the context, mirroring `jset`. -/
def cset (ctx : CtxT) (k : String) (v : CtxEntry) : CtxT :=
  match ctx with
  | [] => [(k, v)]
  | (k', v') :: rest =>
      if k' = k then (k', v) :: rest else (k', v') :: cset rest k v

/-- The enricher's result `{'@context': context, '@graph': data}`. -/
structure EnrichOut where
  context : CtxT
  graph : FieldsT
  deriving DecidableEq

/-- `Proxy.enrich` (proxy.py lines 330-394).  The tree's identity and type
annotations are installed first (overwriting any `@id` / `@type` fields);
then, for each declared type, a context entry is recorded under its short
name and every field matching one of the type's properties gets a context
entry and a value rewrite: nested dicts recurse under a fresh synthetic
blank identity, callables (lazy value providers) are invoked through the
oracles, lists of callables are invoked and concatenated, and lists of
nested values recurse elementwise for object properties.  Registry misses
and recursion into a non-dict raise.  Fuel models Python's recursion
limit. -/
def enrich (F : Fountain) (ns : String → String)
    (extendUri : String → String) (natDatatype : JValue → Option String)
    (evalLazy1 : Nat → String → CtxT → List String →
      List (String × LitVal) → JValue)
    (evalLazyL : Nat → String → CtxT → List String →
      List (String × LitVal) → List JValue) :
    Nat → String → JValue → List TType → CtxT → List String →
    List (String × LitVal) → Nat → Except Unit (EnrichOut × Nat)
  | 0, _, _, _, _, _, _, _ => .error ()
  | Nat.succ fuel, uri, data, types, context, vars, kwargs, ctr =>
    match data with
    | .obj fields0 =>
        let fields1 := jset fields0 "@id" (.s uri)
        let fields2 := jset fields1 "@type" (.arr [])
        let valStep : FieldsT → CtxT → Nat → String → PropDesc →
            Except Unit (FieldsT × CtxT × Nat) :=
          fun fields ctx ctr k pdict =>
            match (jlookup fields k).getD .null with
            | .obj sub =>
                match enrich F ns extendUri natDatatype evalLazy1
                    evalLazyL fuel ("_:" ++ freshName ctr) (.obj sub)
                    (pdict.range.map TType.n3s) ctx [] [] (ctr + 1) with
                | .error e => .error e
                | .ok (out, ctr') =>
                    .ok (jset fields k (.obj out.graph), out.context, ctr')
            | .lazyv n =>
                .ok (jset fields k (evalLazy1 n k ctx vars kwargs), ctx,
                  ctr)
            | .arr xs =>
                if xs.all JValue.isLazy then
                  .ok (jset fields k (.arr (xs.foldl (fun acc x =>
                    match x with
                    | .lazyv n => acc ++ evalLazyL n k ctx vars kwargs
                    | _ => acc) [])), ctx, ctr)
                else if ¬ pdict.isData then
                  match xs.foldlM (fun (st : List JValue × CtxT × Nat) x =>
                      match enrich F ns extendUri natDatatype evalLazy1
                          evalLazyL fuel ("_:" ++ freshName st.2.2) x
                          (pdict.range.map TType.n3s) st.2.1 [] []
                          (st.2.2 + 1) with
                      | .error e =>
                          (Except.error e :
                            Except Unit (List JValue × CtxT × Nat))
                      | .ok (out, ctr') =>
                          Except.ok (st.1 ++ [JValue.obj out.graph],
                            out.context, ctr')) ([], ctx, ctr) with
                  | .error e => .error e
                  | .ok (elems, ctx', ctr') =>
                      .ok (jset fields k (.arr elems), ctx', ctr')
                else .ok (fields, ctx, ctr)
            | _ => .ok (fields, ctx, ctr)
        let fieldStep : List String → (FieldsT × CtxT × Nat) → String →
            Except Unit (FieldsT × CtxT × Nat) :=
          fun props st k =>
            if k ∈ props then
              match F.getProp k with
              | none => .error ()
              | some pdict =>
                  match (if pdict.isData then
                      match pdict.range with
                      | [] => none
                      | r0 :: _ =>
                          if r0 = "rdfs:Resource" then
                            some (CtxEntry.mk
                              (natDatatype ((jlookup st.1 k).getD .null))
                              (extendUri k))
                          else
                            some (CtxEntry.mk (some (extendUri r0))
                              (extendUri k))
                    else some (CtxEntry.mk (some "@id") (extendUri k))) with
                  | none => .error ()
                  | some jp =>
                      valStep st.1 (cset st.2.1 k jp) st.2.2 k pdict
            else .ok st
        let typeStep : (FieldsT × CtxT × List String × Nat) → TType →
            Except Unit (FieldsT × CtxT × List String × Nat) :=
          fun st t =>
            let tn3 := match t with
              | .uri u => ns u
              | .n3s s => s
            match F.getType tn3 with
            | none => .error ()
            | some td =>
                match bidOf tn3 with
                | none => .error ()
                | some short =>
                    let ctx1 := cset st.2.1 short
                      (CtxEntry.mk (some "@id") (extendUri tn3))
                    let shorts1 := st.2.2.1 ++ [short]
                    let fields1 := jset st.1 "@type"
                      (.arr (shorts1.map JValue.s))
                    match (fields1.map Prod.fst).foldlM
                        (fieldStep td.props) (fields1, ctx1, st.2.2.2) with
                    | .error e => .error e
                    | .ok (f, c, n) => .ok (f, c, shorts1, n)
        match types.foldlM typeStep (fields2, context, [], ctr) with
        | .error e => .error e
        | .ok (f, c, _, n) => .ok (⟨c, f⟩, n)
    | _ => .error ()

/-- The per-element recursion of the enricher's list branch (the inner
lambda of `valStep`, named for reasoning). -/
def enrichElemStep (F : Fountain) (ns : String → String)
    (extendUri : String → String) (natDatatype : JValue → Option String)
    (evalLazy1 : Nat → String → CtxT → List String →
      List (String × LitVal) → JValue)
    (evalLazyL : Nat → String → CtxT → List String →
      List (String × LitVal) → List JValue)
    (fuel : Nat) (pdict : PropDesc) (st : List JValue × CtxT × Nat)
    (x : JValue) : Except Unit (List JValue × CtxT × Nat) :=
  match enrich F ns extendUri natDatatype evalLazy1 evalLazyL fuel
      ("_:" ++ freshName st.2.2) x (pdict.range.map TType.n3s) st.2.1
      [] [] (st.2.2 + 1) with
  | .error e => (Except.error e : Except Unit (List JValue × CtxT × Nat))
  | .ok (out, ctr') =>
      Except.ok (st.1 ++ [JValue.obj out.graph], out.context, ctr')

theorem exFoldlM_cons_error {α β : Type} (f : β → α → Except Unit β)
    (x : α) (xs : List α) (b : β) (e : Unit) (h : f b x = .error e) :
    (x :: xs).foldlM f b = .error e := by
  rw [List.foldlM_cons, h]
  rfl

/-- The value dispatch of the enricher's field loop (the `valStep` lambda
inside `enrich`, named for reasoning). -/
def enrichValStep (F : Fountain) (ns : String → String)
    (extendUri : String → String) (natDatatype : JValue → Option String)
    (evalLazy1 : Nat → String → CtxT → List String →
      List (String × LitVal) → JValue)
    (evalLazyL : Nat → String → CtxT → List String →
      List (String × LitVal) → List JValue)
    (fuel : Nat) (vars : List String) (kwargs : List (String × LitVal))
    (fields : FieldsT) (ctx : CtxT) (ctr : Nat) (k : String)
    (pdict : PropDesc) : Except Unit (FieldsT × CtxT × Nat) :=
  match (jlookup fields k).getD .null with
  | .obj sub =>
      match enrich F ns extendUri natDatatype evalLazy1
          evalLazyL fuel ("_:" ++ freshName ctr) (.obj sub)
          (pdict.range.map TType.n3s) ctx [] [] (ctr + 1) with
      | .error e => .error e
      | .ok (out, ctr') =>
          .ok (jset fields k (.obj out.graph), out.context, ctr')
  | .lazyv n =>
      .ok (jset fields k (evalLazy1 n k ctx vars kwargs), ctx, ctr)
  | .arr xs =>
      if xs.all JValue.isLazy then
        .ok (jset fields k (.arr (xs.foldl (fun acc x =>
          match x with
          | .lazyv n => acc ++ evalLazyL n k ctx vars kwargs
          | _ => acc) [])), ctx, ctr)
      else if ¬ pdict.isData then
        match xs.foldlM (enrichElemStep F ns extendUri natDatatype
            evalLazy1 evalLazyL fuel pdict) ([], ctx, ctr) with
        | .error e => .error e
        | .ok (elems, ctx', ctr') =>
            .ok (jset fields k (.arr elems), ctx', ctr')
      else .ok (fields, ctx, ctr)
  | _ => .ok (fields, ctx, ctr)

/-- One iteration of the enricher's field loop (the `fieldStep` lambda
inside `enrich`): only keys among the current type's properties are
touched. -/
def enrichFieldStep (F : Fountain) (ns : String → String)
    (extendUri : String → String) (natDatatype : JValue → Option String)
    (evalLazy1 : Nat → String → CtxT → List String →
      List (String × LitVal) → JValue)
    (evalLazyL : Nat → String → CtxT → List String →
      List (String × LitVal) → List JValue)
    (fuel : Nat) (vars : List String) (kwargs : List (String × LitVal))
    (props : List String) (st : FieldsT × CtxT × Nat) (k : String) :
    Except Unit (FieldsT × CtxT × Nat) :=
  if k ∈ props then
    match F.getProp k with
    | none => .error ()
    | some pdict =>
        match (if pdict.isData then
            match pdict.range with
            | [] => none
            | r0 :: _ =>
                if r0 = "rdfs:Resource" then
                  some (CtxEntry.mk
                    (natDatatype ((jlookup st.1 k).getD .null))
                    (extendUri k))
                else
                  some (CtxEntry.mk (some (extendUri r0)) (extendUri k))
          else some (CtxEntry.mk (some "@id") (extendUri k))) with
        | none => .error ()
        | some jp =>
            enrichValStep F ns extendUri natDatatype evalLazy1 evalLazyL
              fuel vars kwargs st.1 (cset st.2.1 k jp) st.2.2 k pdict
  else .ok st

/-- One iteration of the enricher's type loop (the `typeStep` lambda
inside `enrich`). -/
def enrichTypeStep (F : Fountain) (ns : String → String)
    (extendUri : String → String) (natDatatype : JValue → Option String)
    (evalLazy1 : Nat → String → CtxT → List String →
      List (String × LitVal) → JValue)
    (evalLazyL : Nat → String → CtxT → List String →
      List (String × LitVal) → List JValue)
    (fuel : Nat) (vars : List String) (kwargs : List (String × LitVal))
    (st : FieldsT × CtxT × List String × Nat) (t : TType) :
    Except Unit (FieldsT × CtxT × List String × Nat) :=
  let tn3 := match t with
    | .uri u => ns u
    | .n3s s => s
  match F.getType tn3 with
  | none => .error ()
  | some td =>
      match bidOf tn3 with
      | none => .error ()
      | some short =>
          let ctx1 := cset st.2.1 short
            (CtxEntry.mk (some "@id") (extendUri tn3))
          let shorts1 := st.2.2.1 ++ [short]
          let fields1 := jset st.1 "@type" (.arr (shorts1.map JValue.s))
          match (fields1.map Prod.fst).foldlM
              (enrichFieldStep F ns extendUri natDatatype evalLazy1
                evalLazyL fuel vars kwargs td.props)
              (fields1, ctx1, st.2.2.2) with
          | .error e => .error e
          | .ok (f, c, n) => .ok (f, c, shorts1, n)

/-- Unfolding of `enrich` on a dict through the named step functions. -/
theorem enrich_obj (F : Fountain) (ns : String → String)
    (extendUri : String → String) (natDatatype : JValue → Option String)
    (evalLazy1 : Nat → String → CtxT → List String →
      List (String × LitVal) → JValue)
    (evalLazyL : Nat → String → CtxT → List String →
      List (String × LitVal) → List JValue)
    (fuel : Nat) (uri : String) (fields0 : FieldsT) (types : List TType)
    (context : CtxT) (vars : List String)
    (kwargs : List (String × LitVal)) (ctr : Nat) :
    enrich F ns extendUri natDatatype evalLazy1 evalLazyL (fuel + 1) uri
        (.obj fields0) types context vars kwargs ctr =
      match types.foldlM
          (enrichTypeStep F ns extendUri natDatatype evalLazy1 evalLazyL
            fuel vars kwargs)
          (jset (jset fields0 "@id" (.s uri)) "@type" (.arr []),
            context, [], ctr) with
      | .error e => .error e
      | .ok (f, c, _, n) => .ok (⟨c, f⟩, n) := rfl

/-- Values whose enrichment never recurses nor invokes a provider: no
dicts, no callables, and lists only of plain strings. -/
def ctxSafe : JValue → Bool
  | .obj _ => false
  | .lazyv _ => false
  | .arr xs => xs.all (fun x => match x with | .s _ => true | _ => false)
  | _ => true

/-- Rendering of a declared type to its n3 form (`t.n3(ns)` for URIRefs,
identity for strings). -/
def renderT (ns : String → String) : TType → String
  | .uri u => ns u
  | .n3s s => s

theorem enrich_not_obj (F : Fountain) (ns : String → String)
    (extendUri : String → String) (natDatatype : JValue → Option String)
    (evalLazy1 : Nat → String → CtxT → List String →
      List (String × LitVal) → JValue)
    (evalLazyL : Nat → String → CtxT → List String →
      List (String × LitVal) → List JValue)
    (fuel : Nat) (uri : String) (data : JValue) (types : List TType)
    (context : CtxT) (vars : List String)
    (kwargs : List (String × LitVal)) (ctr : Nat)
    (h : data.isObj = false) :
    enrich F ns extendUri natDatatype evalLazy1 evalLazyL fuel uri data
      types context vars kwargs ctr = .error () := by
  cases fuel with
  | zero => rfl
  | succ n => cases data <;> simp_all [enrich, JValue.isObj]

theorem clookup_cset_ne (ctx : CtxT) (k x : String) (v : CtxEntry)
    (h : x ≠ k) : clookup (cset ctx k v) x = clookup ctx x := by
  have h' : ¬ (k = x) := fun he => h he.symm
  induction ctx with
  | nil => simp [cset, clookup, h']
  | cons kv rest ih =>
      by_cases hk : kv.1 = k
      · subst hk
        simp [cset, clookup, h']
      · simp [cset, clookup, hk, ih]

theorem jset_mem (fields : FieldsT) (k : String) (v : JValue)
    (kv : String × JValue) (h : kv ∈ jset fields k v) :
    kv ∈ fields ∨ kv = (k, v) := by
  induction fields with
  | nil => simpa [jset] using h
  | cons kv' rest ih =>
      by_cases hk : kv'.1 = k
      · rw [jset, if_pos hk] at h
        rcases List.mem_cons.mp h with he | he
        · obtain ⟨k1, v1⟩ := kv'
          simp only at hk
          subst hk
          exact Or.inr he
        · exact Or.inl (List.mem_cons_of_mem _ he)
      · rw [jset, if_neg hk] at h
        rcases List.mem_cons.mp h with he | he
        · exact Or.inl (he ▸ List.mem_cons_self _ _)
        · rcases ih he with hin | hin
          · exact Or.inl (List.mem_cons_of_mem _ hin)
          · exact Or.inr hin


theorem enrichValStep_arr (F : Fountain) (ns : String → String)
    (extendUri : String → String) (natDatatype : JValue → Option String)
    (evalLazy1 : Nat → String → CtxT → List String →
      List (String × LitVal) → JValue)
    (evalLazyL : Nat → String → CtxT → List String →
      List (String × LitVal) → List JValue)
    (fuel : Nat) (vars : List String) (kwargs : List (String × LitVal))
    (fields : FieldsT) (ctx : CtxT) (ctr : Nat) (k : String)
    (pdict : PropDesc) (xs : List JValue)
    (hlk : jlookup fields k = some (.arr xs)) :
    enrichValStep F ns extendUri natDatatype evalLazy1 evalLazyL fuel
        vars kwargs fields ctx ctr k pdict =
      if xs.all JValue.isLazy then
        .ok (jset fields k (.arr (xs.foldl (fun acc x =>
          match x with
          | .lazyv n => acc ++ evalLazyL n k ctx vars kwargs
          | _ => acc) [])), ctx, ctr)
      else if ¬ pdict.isData then
        match xs.foldlM (enrichElemStep F ns extendUri natDatatype
            evalLazy1 evalLazyL fuel pdict) ([], ctx, ctr) with
        | .error e => .error e
        | .ok (elems, ctx', ctr') =>
            .ok (jset fields k (.arr elems), ctx', ctr')
      else .ok (fields, ctx, ctr) := by
  unfold enrichValStep
  rw [hlk]
  rfl

theorem enrichValStep_safe (F : Fountain) (ns : String → String)
    (extendUri : String → String) (natDatatype : JValue → Option String)
    (evalLazy1 : Nat → String → CtxT → List String →
      List (String × LitVal) → JValue)
    (evalLazyL : Nat → String → CtxT → List String →
      List (String × LitVal) → List JValue)
    (fuel : Nat) (vars : List String) (kwargs : List (String × LitVal))
    (fields : FieldsT) (ctx : CtxT) (ctr : Nat) (k : String)
    (pdict : PropDesc) (st' : FieldsT × CtxT × Nat)
    (hsafe : ∀ kv ∈ fields, ctxSafe kv.2 = true)
    (hok : enrichValStep F ns extendUri natDatatype evalLazy1 evalLazyL
      fuel vars kwargs fields ctx ctr k pdict = .ok st') :
    st'.2.1 = ctx ∧
    (∀ x, x ≠ k → jlookup st'.1 x = jlookup fields x) ∧
    (∀ kv ∈ st'.1, ctxSafe kv.2 = true) := by
  cases hlk : jlookup fields k with
  | none =>
      unfold enrichValStep at hok
      rw [hlk] at hok
      injection hok with h3
      subst h3
      exact ⟨rfl, fun x _ => rfl, hsafe⟩
  | some v =>
      have hx := hsafe _ (jlookup_mem _ _ _ hlk)
      cases v with
      | obj sub => simp [ctxSafe] at hx
      | lazyv n => simp [ctxSafe] at hx
      | null =>
          unfold enrichValStep at hok
          rw [hlk] at hok
          injection hok with h3
          subst h3
          exact ⟨rfl, fun x _ => rfl, hsafe⟩
      | b bv =>
          unfold enrichValStep at hok
          rw [hlk] at hok
          injection hok with h3
          subst h3
          exact ⟨rfl, fun x _ => rfl, hsafe⟩
      | i iv =>
          unfold enrichValStep at hok
          rw [hlk] at hok
          injection hok with h3
          subst h3
          exact ⟨rfl, fun x _ => rfl, hsafe⟩
      | s sv =>
          unfold enrichValStep at hok
          rw [hlk] at hok
          injection hok with h3
          subst h3
          exact ⟨rfl, fun x _ => rfl, hsafe⟩
      | arr xs =>
          rw [enrichValStep_arr F ns extendUri natDatatype evalLazy1
            evalLazyL fuel vars kwargs fields ctx ctr k pdict xs hlk]
            at hok
          simp only [ctxSafe, List.all_eq_true] at hx
          by_cases hlz : xs.all JValue.isLazy
          · rw [if_pos hlz] at hok
            cases xs with
            | nil =>
                injection hok with h3
                subst h3
                refine ⟨rfl, fun x hne => jlookup_jset_ne _ _ _ _ hne, ?_⟩
                intro kv hkv
                rcases jset_mem _ _ _ _ hkv with h | h
                · exact hsafe _ h
                · simp [h, ctxSafe]
            | cons x0 xs' =>
                exfalso
                have h0 := hx x0 (List.mem_cons_self _ _)
                have hl0 := List.all_eq_true.mp hlz x0
                  (List.mem_cons_self _ _)
                cases x0 <;> simp [JValue.isLazy] at h0 hl0
          · rw [if_neg hlz] at hok
            by_cases hd : pdict.isData
            · rw [if_neg (not_not_intro hd)] at hok
              injection hok with h3
              subst h3
              exact ⟨rfl, fun x _ => rfl, hsafe⟩
            · rw [if_pos hd] at hok
              exfalso
              cases xs with
              | nil => exact hlz rfl
              | cons x0 xs' =>
                  have h0 := hx x0 (List.mem_cons_self _ _)
                  cases x0 <;> simp at h0
                  rename_i str
                  have hfe : enrichElemStep F ns extendUri natDatatype
                      evalLazy1 evalLazyL fuel pdict ([], ctx, ctr)
                      (.s str) = .error () := by
                    unfold enrichElemStep
                    rw [enrich_not_obj]
                    rfl
                  rw [exFoldlM_cons_error _ (JValue.s str) xs'
                    ([], ctx, ctr) () hfe] at hok
                  injection hok

theorem enrichFieldStep_safe (F : Fountain) (ns : String → String)
    (extendUri : String → String) (natDatatype : JValue → Option String)
    (evalLazy1 : Nat → String → CtxT → List String →
      List (String × LitVal) → JValue)
    (evalLazyL : Nat → String → CtxT → List String →
      List (String × LitVal) → List JValue)
    (fuel : Nat) (vars : List String) (kwargs : List (String × LitVal))
    (props : List String) (st : FieldsT × CtxT × Nat) (k : String)
    (st' : FieldsT × CtxT × Nat) (x : String)
    (hsafe : ∀ kv ∈ st.1, ctxSafe kv.2 = true)
    (hxp : x ∉ props)
    (hok : enrichFieldStep F ns extendUri natDatatype evalLazy1 evalLazyL
      fuel vars kwargs props st k = .ok st') :
    jlookup st'.1 x = jlookup st.1 x ∧
    clookup st'.2.1 x = clookup st.2.1 x ∧
    (∀ kv ∈ st'.1, ctxSafe kv.2 = true) := by
  unfold enrichFieldStep at hok
  by_cases hk : k ∈ props
  · rw [if_pos hk] at hok
    have hne : x ≠ k := fun he => hxp (he ▸ hk)
    split at hok
    · exact absurd hok (by simp)
    · next pdict heq =>
        split at hok
        · exact absurd hok (by simp)
        · next jp heq2 =>
            obtain ⟨hctx, hlook, hsafe'⟩ := enrichValStep_safe F ns
              extendUri natDatatype evalLazy1 evalLazyL fuel vars kwargs
              st.1 (cset st.2.1 k jp) st.2.2 k pdict st' hsafe hok
            refine ⟨hlook x hne, ?_, hsafe'⟩
            rw [hctx, clookup_cset_ne _ _ _ _ hne]
  · rw [if_neg hk] at hok
    injection hok with h3
    subst h3
    exact ⟨rfl, rfl, hsafe⟩

theorem enrichFieldFold_safe (F : Fountain) (ns : String → String)
    (extendUri : String → String) (natDatatype : JValue → Option String)
    (evalLazy1 : Nat → String → CtxT → List String →
      List (String × LitVal) → JValue)
    (evalLazyL : Nat → String → CtxT → List String →
      List (String × LitVal) → List JValue)
    (fuel : Nat) (vars : List String) (kwargs : List (String × LitVal))
    (props : List String) (keys : List String)
    (st st' : FieldsT × CtxT × Nat) (x : String)
    (hsafe : ∀ kv ∈ st.1, ctxSafe kv.2 = true)
    (hxp : x ∉ props)
    (hok : keys.foldlM (enrichFieldStep F ns extendUri natDatatype
      evalLazy1 evalLazyL fuel vars kwargs props) st = .ok st') :
    jlookup st'.1 x = jlookup st.1 x ∧
    clookup st'.2.1 x = clookup st.2.1 x ∧
    (∀ kv ∈ st'.1, ctxSafe kv.2 = true) := by
  induction keys generalizing st with
  | nil =>
      injection hok with h3
      subst h3
      exact ⟨rfl, rfl, hsafe⟩
  | cons k ks ih =>
      rw [List.foldlM_cons] at hok
      cases hstep : enrichFieldStep F ns extendUri natDatatype evalLazy1
          evalLazyL fuel vars kwargs props st k with
      | error e =>
          rw [hstep] at hok
          have hcontra : (Except.error e :
              Except Unit (FieldsT × CtxT × Nat)) = .ok st' := hok
          exact absurd hcontra (by simp)
      | ok st1 =>
          rw [hstep] at hok
          have hok2 : ks.foldlM (enrichFieldStep F ns extendUri
              natDatatype evalLazy1 evalLazyL fuel vars kwargs props)
              st1 = .ok st' := hok
          obtain ⟨h1, h2, h3⟩ := enrichFieldStep_safe F ns extendUri
            natDatatype evalLazy1 evalLazyL fuel vars kwargs props st k
            st1 x hsafe hxp hstep
          obtain ⟨g1, g2, g3⟩ := ih st1 h3 hok2
          exact ⟨g1.trans h1, g2.trans h2, g3⟩

theorem ctxSafe_strings (l : List String) :
    ctxSafe (.arr (l.map JValue.s)) = true := by
  simp only [ctxSafe, List.all_eq_true]
  intro y hy
  obtain ⟨a, _, rfl⟩ := List.mem_map.mp hy
  rfl

/-- `enrichTypeStep` with the inline type rendering expressed through
`renderT`. -/
theorem enrichTypeStep_render (F : Fountain) (ns : String → String)
    (extendUri : String → String) (natDatatype : JValue → Option String)
    (evalLazy1 : Nat → String → CtxT → List String →
      List (String × LitVal) → JValue)
    (evalLazyL : Nat → String → CtxT → List String →
      List (String × LitVal) → List JValue)
    (fuel : Nat) (vars : List String) (kwargs : List (String × LitVal))
    (st : FieldsT × CtxT × List String × Nat) (t : TType) :
    enrichTypeStep F ns extendUri natDatatype evalLazy1 evalLazyL fuel
        vars kwargs st t =
      match F.getType (renderT ns t) with
      | none => .error ()
      | some td =>
          match bidOf (renderT ns t) with
          | none => .error ()
          | some short =>
              match ((jset st.1 "@type"
                    (.arr ((st.2.2.1 ++ [short]).map JValue.s))).map
                    Prod.fst).foldlM
                  (enrichFieldStep F ns extendUri natDatatype evalLazy1
                    evalLazyL fuel vars kwargs td.props)
                  (jset st.1 "@type"
                    (.arr ((st.2.2.1 ++ [short]).map JValue.s)),
                   cset st.2.1 short
                    (CtxEntry.mk (some "@id") (extendUri (renderT ns t))),
                   st.2.2.2) with
              | .error e => .error e
              | .ok (f, c, n) => .ok (f, c, st.2.2.1 ++ [short], n) := by
  cases t <;> rfl

theorem enrichTypeStep_safe (F : Fountain) (ns : String → String)
    (extendUri : String → String) (natDatatype : JValue → Option String)
    (evalLazy1 : Nat → String → CtxT → List String →
      List (String × LitVal) → JValue)
    (evalLazyL : Nat → String → CtxT → List String →
      List (String × LitVal) → List JValue)
    (fuel : Nat) (vars : List String) (kwargs : List (String × LitVal))
    (st st' : FieldsT × CtxT × List String × Nat) (t : TType) (x : String)
    (hsafe : ∀ kv ∈ st.1, ctxSafe kv.2 = true)
    (hxp : ∀ td, F.getType (renderT ns t) = some td → x ∉ td.props)
    (hshort : ∀ short, bidOf (renderT ns t) = some short → short ≠ x)
    (hxt : x ≠ "@type")
    (hok : enrichTypeStep F ns extendUri natDatatype evalLazy1 evalLazyL
      fuel vars kwargs st t = .ok st') :
    jlookup st'.1 x = jlookup st.1 x ∧
    clookup st'.2.1 x = clookup st.2.1 x ∧
    (∀ kv ∈ st'.1, ctxSafe kv.2 = true) := by
  rw [enrichTypeStep_render] at hok
  split at hok
  · exact absurd hok (by simp)
  · next td hgt =>
      split at hok
      · exact absurd hok (by simp)
      · next short hbid =>
          split at hok
          · exact absurd hok (by simp)
          · next f c n hfold =>
              injection hok with h3
              subst h3
              have hsafe1 : ∀ kv ∈ jset st.1 "@type"
                  (.arr ((st.2.2.1 ++ [short]).map JValue.s)),
                  ctxSafe kv.2 = true := by
                intro kv hkv
                rcases jset_mem _ _ _ _ hkv with h | h
                · exact hsafe _ h
                · rw [h]
                  exact ctxSafe_strings _
              obtain ⟨g1, g2, g3⟩ := enrichFieldFold_safe F ns extendUri
                natDatatype evalLazy1 evalLazyL fuel vars kwargs td.props
                _ _ _ x hsafe1 (hxp td hgt) hfold
              refine ⟨g1.trans (jlookup_jset_ne _ _ _ _ hxt), ?_, g3⟩
              exact g2.trans
                (clookup_cset_ne _ _ _ _ (Ne.symm (hshort short hbid)))

theorem enrichTypesFold_safe (F : Fountain) (ns : String → String)
    (extendUri : String → String) (natDatatype : JValue → Option String)
    (evalLazy1 : Nat → String → CtxT → List String →
      List (String × LitVal) → JValue)
    (evalLazyL : Nat → String → CtxT → List String →
      List (String × LitVal) → List JValue)
    (fuel : Nat) (vars : List String) (kwargs : List (String × LitVal))
    (types : List TType) (st st' : FieldsT × CtxT × List String × Nat)
    (x : String)
    (hsafe : ∀ kv ∈ st.1, ctxSafe kv.2 = true)
    (hxp : ∀ t ∈ types, ∀ td, F.getType (renderT ns t) = some td →
      x ∉ td.props)
    (hshort : ∀ t ∈ types, ∀ short, bidOf (renderT ns t) = some short →
      short ≠ x)
    (hxt : x ≠ "@type")
    (hok : types.foldlM (enrichTypeStep F ns extendUri natDatatype
      evalLazy1 evalLazyL fuel vars kwargs) st = .ok st') :
    jlookup st'.1 x = jlookup st.1 x ∧
    clookup st'.2.1 x = clookup st.2.1 x ∧
    (∀ kv ∈ st'.1, ctxSafe kv.2 = true) := by
  induction types generalizing st with
  | nil =>
      injection hok with h3
      subst h3
      exact ⟨rfl, rfl, hsafe⟩
  | cons t ts ih =>
      rw [List.foldlM_cons] at hok
      cases hstep : enrichTypeStep F ns extendUri natDatatype evalLazy1
          evalLazyL fuel vars kwargs st t with
      | error e =>
          rw [hstep] at hok
          have hcontra : (Except.error e :
              Except Unit (FieldsT × CtxT × List String × Nat)) =
              .ok st' := hok
          exact absurd hcontra (by simp)
      | ok st1 =>
          rw [hstep] at hok
          have hok2 : ts.foldlM (enrichTypeStep F ns extendUri
              natDatatype evalLazy1 evalLazyL fuel vars kwargs) st1 =
              .ok st' := hok
          obtain ⟨h1, h2, h3⟩ := enrichTypeStep_safe F ns extendUri
            natDatatype evalLazy1 evalLazyL fuel vars kwargs st st1 t x
            hsafe (hxp t (List.mem_cons_self _ _))
            (hshort t (List.mem_cons_self _ _)) hxt hstep
          obtain ⟨g1, g2, g3⟩ := ih st1 h3
            (fun t' ht' => hxp t' (List.mem_cons_of_mem _ ht'))
            (fun t' ht' => hshort t' (List.mem_cons_of_mem _ ht'))
            hok2
          exact ⟨g1.trans h1, g2.trans h2, g3⟩

/-- C8 (amended): under a successful run of `enrich` on a dict whose
field values are plain (no nested dicts, no callables, lists only of
strings), every field key `x` other than the reserved `@id` / `@type`
slots that is not among the declared properties of any active type and
does not collide with any active type's short name keeps its value
unchanged in the returned graph, and no context entry is recorded for
it.  The reserved slots are overwritten unconditionally and each type's
short name always receives a context entry, so the claim's unrestricted
"every field not among the declared properties is untouched" is refuted
by `c8_counterexample`. -/
theorem c8_enrich_untouched (F : Fountain) (ns : String → String)
    (extendUri : String → String) (natDatatype : JValue → Option String)
    (evalLazy1 : Nat → String → CtxT → List String →
      List (String × LitVal) → JValue)
    (evalLazyL : Nat → String → CtxT → List String →
      List (String × LitVal) → List JValue)
    (fuel : Nat) (uri : String) (fields0 : FieldsT) (types : List TType)
    (context : CtxT) (vars : List String)
    (kwargs : List (String × LitVal)) (ctr : Nat) (out : EnrichOut)
    (ctr' : Nat) (x : String)
    (hok : enrich F ns extendUri natDatatype evalLazy1 evalLazyL
      (fuel + 1) uri (.obj fields0) types context vars kwargs ctr =
      .ok (out, ctr'))
    (hsafe : ∀ kv ∈ fields0, ctxSafe kv.2 = true)
    (hid : x ≠ "@id") (hty : x ≠ "@type")
    (hxp : ∀ t ∈ types, ∀ td, F.getType (renderT ns t) = some td →
      x ∉ td.props)
    (hshort : ∀ t ∈ types, ∀ short, bidOf (renderT ns t) = some short →
      short ≠ x) :
    jlookup out.graph x = jlookup fields0 x ∧
    clookup out.context x = clookup context x := by
  rw [enrich_obj] at hok
  split at hok
  · exact absurd hok (by simp)
  · next f c sh n hfold =>
      injection hok with h3
      injection h3 with h31 h32
      subst h31
      have hsafe2 : ∀ kv ∈ jset (jset fields0 "@id" (.s uri)) "@type"
          (.arr []), ctxSafe kv.2 = true := by
        intro kv hkv
        rcases jset_mem _ _ _ _ hkv with h | h
        · rcases jset_mem _ _ _ _ h with h2 | h2
          · exact hsafe _ h2
          · simp [h2, ctxSafe]
        · simp [h, ctxSafe]
      obtain ⟨g1, g2, g3⟩ := enrichTypesFold_safe F ns extendUri
        natDatatype evalLazy1 evalLazyL fuel vars kwargs types _ _ x
        hsafe2 hxp hshort hty hfold
      exact ⟨g1.trans ((jlookup_jset_ne _ _ _ _ hty).trans
        (jlookup_jset_ne _ _ _ _ hid)), g2⟩

/-- A registry declaring a single type `ex:T` with no properties. -/
def c8F : Fountain :=
  ⟨fun t => if t = "ex:T" then some ⟨[], []⟩ else none, fun _ => none⟩

/-- C8 counterexample: with the single active type `ex:T` declaring no
properties at all, enriching `{'@id': 'orig', 'T': 5}` still (a)
overwrites the `@id` field with the resource URI even though `@id` is
not a declared property, and (b) records a context entry under `T` (the
type's short name) even though the field `T` is not a declared property:
the claim's unrestricted frame property fails for the reserved `@id`
slot and for fields colliding with a type short name. -/
theorem c8_counterexample :
    enrich c8F id id (fun _ => none) (fun _ _ _ _ _ => JValue.null)
        (fun _ _ _ _ _ => ([] : List JValue)) 2 "http://u"
        (.obj [("@id", .s "orig"), ("T", .i 5)]) [.n3s "ex:T"] [] [] []
        0 =
      .ok (⟨[("T", ⟨some "@id", "ex:T"⟩)],
        [("@id", .s "http://u"), ("T", .i 5),
         ("@type", .arr [.s "T"])]⟩, 0) ∧
    c8F.getType "ex:T" = some ⟨[], []⟩ ∧
    jlookup [("@id", JValue.s "orig"), ("T", JValue.i 5)] "@id" =
      some (.s "orig") ∧
    jlookup [("@id", JValue.s "http://u"), ("T", JValue.i 5),
      ("@type", JValue.arr [JValue.s "T"])] "@id" =
      some (.s "http://u") ∧
    clookup [("T", CtxEntry.mk (some "@id") "ex:T")] "T" ≠ none ∧
    clookup ([] : CtxT) "T" = none := by
  refine ⟨by decide, by decide, by decide, by decide, by decide,
    by decide⟩

theorem c8_witness :
    jlookup [("U", JValue.i 7), ("@id", JValue.s "http://u"),
        ("@type", JValue.arr [JValue.s "T"])] "U" =
      jlookup [("U", JValue.i 7)] "U" ∧
    clookup [("T", CtxEntry.mk (some "@id") "ex:T")] "U" =
      clookup ([] : CtxT) "U" :=
  c8_enrich_untouched c8F id id (fun _ => none)
    (fun _ _ _ _ _ => JValue.null) (fun _ _ _ _ _ => ([] : List JValue))
    1 "http://u" [("U", .i 7)] [.n3s "ex:T"] [] [] [] 0
    ⟨[("T", ⟨some "@id", "ex:T"⟩)],
      [("U", .i 7), ("@id", .s "http://u"),
       ("@type", .arr [.s "T"])]⟩ 0 "U"
    (by decide) (by decide) (by decide) (by decide)
    (by
      intro t ht td hgt
      simp only [List.mem_singleton] at ht
      subst ht
      simp only [c8F, renderT, id, if_true] at hgt
      injection hgt with hgt
      subst hgt
      decide)
    (by
      intro t ht short hb
      simp only [List.mem_singleton] at ht
      subst ht
      have hb2 : some "T" = some short := by
        rw [← hb]
        decide
      injection hb2 with hb2
      subst hb2
      decide)

/-! ### `Proxy.describe_resource` (proxy.py lines 242-313) -/

def rdfType : String := "http://www.w3.org/1999/02/22-rdf-syntax-ns#type"

def owlSameAs : String := "http://www.w3.org/2002/07/owl#sameAs"

/-- First-match lookup in the decoded instantiation arguments
(`resource_args[...]` / `str(o) in resource_args`). -/
def lvlookup (m : List (String × LitVal)) (k : String) : Option LitVal :=
  match m with
  | [] => none
  | (k', v) :: rest => if k' = k then some v else lvlookup rest k

/-- The `order` attribute of a composed endpoint, used as the sort key at
line 299.  `Endpoint.__add__` lives in `agora_wot.blocks` (not under
src/); modelled from the spec's total order on a resource's endpoints:
the composed callable carries the priority of this resource's own
endpoint, the last of the chain. -/
def epOrder (e : CEndpoint) : Nat :=
  ((e.getLast?).map BaseEndpoint.order).getD 0

/-- Stable insertion used by `sortEp`: `x` goes after every earlier
element whose key does not exceed its own. -/
def insEp {α : Type} (key : α → Nat) (x : α) : List α → List α
  | [] => [x]
  | y :: ys => if key y ≤ key x then y :: insEp key x ys else x :: y :: ys

/-- Python's stable `sorted(..., key=...)`. -/
def sortEp {α : Type} (key : α → Nat) (xs : List α) : List α :=
  xs.foldl (fun acc x => insEp key x acc) []

/-- The upstream response of one endpoint invocation: `e.invoke` either
raises or yields a response with a status code, a JSON body
(`response.json()` itself may raise) and the parsed freshness hint
`extract_ttl(response.headers)` (absent headers give `None`). -/
inductive InvokeResult where
  | raise : InvokeResult
  | resp : Nat → Except Unit JValue → Option Nat → InvokeResult
  deriving DecidableEq

/-- The proxy state `describe_resource` reads: the resource dictionary,
the blank-node-to-resource-id index, the dependency predecessors, the
namespace manager's n3 rendering, the type registry and the wrapper's
URL builder (`self.__wrapper.url_for('describe_resource', tid, b64)`). -/
structure ProxyModel where
  rdict : String → Option TDModel
  ndict : String → Option String
  preds : String → List String
  ns : String → String
  fountain : Fountain
  wrapperUrl : String → Option String → String

/-- The external world of one `describe_resource` call: argument
decoding (`eval(base64.b64decode(b64))`, which raises on garbage),
Python's `str`, the same-as graph loader, the endpoint invoker, the
per-endpoint mapping rules (`td.endpoint_mappings`, from
`agora_wot.blocks`, keyed here by resource id and endpoint), the
jsonpath evaluator, pyld's normalization, and the oracles the enricher
and materializer already take. -/
structure DescribeEnv where
  decodeB64 : String → Except Unit (List (String × LitVal))
  pyStr : LitVal → String
  sameAsLoad : String → Except Unit (List Triple)
  invoke : CEndpoint → Graph → List (String × LitVal) → InvokeResult
  epMappings : String → CEndpoint → List Mapping
  pathEval : String → JValue → List JValue
  normalize : EnrichOut → List NTriple
  extendUri : String → String
  natDatatype : JValue → Option String
  evalLazy1 : Nat → String → CtxT → List String →
    List (String × LitVal) → JValue
  evalLazyL : Nat → String → CtxT → List String →
    List (String × LitVal) → List JValue
  off : Int

/-- The per-triple rewrite of the static loop (proxy.py lines 260-271):
a blank object known to the resource index becomes that resource's
dereferenceable URI; a literal object whose string form names an
instantiation argument is replaced by that argument's value under the
original datatype; the resource's own node as subject becomes the
materialized URI; and a triple whose (rewritten) subject is a blank node
known to the index is dropped. -/
def staticRewrite (P : ProxyModel) (env : DescribeEnv) (b64 : Option String)
    (rargs : List (String × LitVal)) (node : Term) (ruri : String)
    (t : Triple) : Option Triple :=
  let o1 := match t.2.2 with
    | Term.bnode bb =>
        match P.ndict bb with
        | some ntid => Term.uri (P.wrapperUrl ntid b64)
        | none => Term.bnode bb
    | Term.lit lv dt =>
        match lvlookup rargs (env.pyStr lv) with
        | some nv => Term.lit nv dt
        | none => Term.lit lv dt
    | o => o
  let s1 := if t.1 = node then Term.uri ruri else t.1
  match s1 with
  | Term.bnode bb =>
      if (P.ndict bb).isSome then none else some (s1, t.2.1, o1)
  | _ => some (s1, t.2.1, o1)

/-- One iteration of the static-triple loop: apply the rewrite and add
the result, if any, to the graph. -/
def staticStep (P : ProxyModel) (env : DescribeEnv) (b64 : Option String)
    (rargs : List (String × LitVal)) (node : Term) (ruri : String)
    (g : Graph) (t : Triple) : Graph :=
  match staticRewrite P env b64 rargs node ruri t with
  | none => g
  | some t' => addT g t'

/-- One iteration of the type-expansion loop (proxy.py lines 274-282):
resolve the type in the registry (a miss raises, carrying the graph so
far), accumulate its properties, and add one `rdf:type` triple per
supertype. -/
def describeTypeStep (P : ProxyModel) (env : DescribeEnv) (ruri : String)
    (st : Graph × List String) (t : TType) :
    Except Graph (Graph × List String) :=
  match P.fountain.getType (renderT P.ns t) with
  | none => .error st.1
  | some tdd =>
      .ok (tdd.super.foldl (fun gg s =>
          addT gg (Term.uri ruri, Term.uri rdfType,
            Term.uri (env.extendUri s))) st.1,
        st.2 ++ tdd.props)

/-- The filter of the same-as loop (proxy.py lines 290-296): keep only
triples whose predicate renders to a declared resource property; the
source URI as subject becomes the materialized resource URI and any
other non-blank subject is dropped.  Predicates of rdflib graphs are
always URI references; anything else cannot render and is dropped. -/
def saRewrite (P : ProxyModel) (ruri : String) (props : List String)
    (href : String) (tr : Triple) : Option Triple :=
  match tr.2.1 with
  | Term.uri pu =>
      if P.ns pu ∈ props then
        if tr.1 = Term.uri href then
          some (Term.uri ruri, tr.2.1, tr.2.2)
        else
          match tr.1 with
          | Term.bnode _ => some tr
          | _ => none
      else none
  | _ => none

/-- One iteration of the same-as loop (proxy.py lines 285-296): the
`owl:sameAs` statement is added first, then the source graph is loaded
(a failed load raises, with the `owl:sameAs` triple already in the
graph) and its filtered triples are merged. -/
def describeSameAsStep (P : ProxyModel) (env : DescribeEnv)
    (ruri : String) (props : List String) (g : Graph) (href : String) :
    Except Graph Graph :=
  let g1 := addT g (Term.uri ruri, Term.uri owlSameAs, Term.uri href)
  match env.sameAsLoad href with
  | .error _ => .error g1
  | .ok sg =>
      .ok (sg.foldl (fun gg tr =>
        match saRewrite P ruri props href tr with
        | none => gg
        | some t' => addT gg t') g1)

/-- One iteration of the endpoint loop (proxy.py lines 299-308).  The
invocation happens first and may raise; a response other than 200 is
skipped; a 200 response runs the body parse, the mapping engine, the
enricher and the materializer — any raise in those aborts with the
graph accumulated so far (the materializer leaves its partial triples
in the graph) — and finally lowers the cache lifetime to the response's
freshness hint via `min(ttl, extract_ttl(headers) or ttl)`, whose
Python falsiness makes both an absent and a zero hint fall back to the
current value.  The state tracks the graph, the lifetime, the endpoints
invoked so far and the fresh-name counter. -/
def describeEpStep (P : ProxyModel) (env : DescribeEnv) (fuel : Nat)
    (td : TDModel) (ruri : String) (rargs : List (String × LitVal))
    (st : Graph × Nat × List CEndpoint × Nat) (e : CEndpoint) :
    Except (Graph × Nat × List CEndpoint × Nat)
      (Graph × Nat × List CEndpoint × Nat) :=
  match env.invoke e st.1 rargs with
  | .raise => .error (st.1, st.2.1, st.2.2.1 ++ [e], st.2.2.2)
  | .resp code body ma =>
      if code = 200 then
        match body with
        | .error _ => .error (st.1, st.2.1, st.2.2.1 ++ [e], st.2.2.2)
        | .ok data =>
            match apply_mappings P.ns env.pathEval fuel data
                (env.epMappings td.id e) with
            | .error _ => .error (st.1, st.2.1, st.2.2.1 ++ [e], st.2.2.2)
            | .ok mapped =>
                match enrich P.fountain P.ns env.extendUri
                    env.natDatatype env.evalLazy1 env.evalLazyL fuel
                    ruri mapped td.types [] td.vars rargs st.2.2.2 with
                | .error _ =>
                    .error (st.1, st.2.1, st.2.2.1 ++ [e], st.2.2.2)
                | .ok (ld, ctr1) =>
                    match ld_triples env.off (env.normalize ld) st.1
                        ctr1 with
                    | .error (g1, stB) =>
                        .error (g1, st.2.1, st.2.2.1 ++ [e], stB.ctr)
                    | .ok (g1, stB) =>
                        .ok (g1, (match ma with
                          | none => st.2.1
                          | some 0 => st.2.1
                          | some m => min st.2.1 m), st.2.2.1 ++ [e],
                          stB.ctr)
      else .ok (st.1, st.2.1, st.2.2.1 ++ [e], st.2.2.2)

/-- The `try` body of `describe_resource` (proxy.py lines 249-308),
with the graph, the lifetime, the invoked endpoints and the fresh-name
counter threaded; an error is a raised exception carrying the state the
outer handler observes.  The lifetime starts at the default 100000 and
only the endpoint loop changes it.  An empty endpoint declaration skips
the loop entirely (line 298's truthiness check), so no chain is even
composed. -/
def describeBody (P : ProxyModel) (env : DescribeEnv) (fuel : Nat)
    (td : TDModel) (tid : String) (b64 : Option String)
    (kwargs : List (String × LitVal)) (ctr : Nat) :
    Except (Graph × Nat × List CEndpoint × Nat)
      (Graph × Nat × List CEndpoint × Nat) :=
  match (match b64 with
    | none => (Except.ok [] : Except Unit (List (String × LitVal)))
    | some s => env.decodeB64 s) with
  | .error _ => .error ([], 100000, [], ctr)
  | .ok rargs =>
    let u0 := P.wrapperUrl tid b64
    let ruri := if kwargs = [] then u0
      else u0 ++ "?" ++ String.intercalate "&"
        (kwargs.map (fun kv => kv.1 ++ "=" ++ env.pyStr kv.2))
    let g1 := td.graph.foldl (staticStep P env b64 rargs td.node ruri) []
    match td.types.foldlM (describeTypeStep P env ruri) (g1, []) with
    | .error g2 => .error (g2, 100000, [], ctr)
    | .ok (g2, props) =>
        match td.rdfSources.foldlM
            (describeSameAsStep P env ruri props) g2 with
        | .error g3 => .error (g3, 100000, [], ctr)
        | .ok g3 =>
            if td.base = [] then .ok (g3, 100000, [], ctr)
            else
              match compose_endpoints P.preds P.rdict fuel td with
              | .error _ => .error (g3, 100000, [], ctr)
              | .ok chains =>
                  (sortEp epOrder chains).foldlM
                    (describeEpStep P env fuel td ruri rargs)
                    (g3, 100000, [], ctr)

/-- `Proxy.describe_resource` (proxy.py lines 242-313).  The lookup
`td = self.__rdict[tid]` happens before the `try`, so an unknown id
raises out of the function (`none`); everything else is caught and the
accumulated graph and lifetime are returned either way. -/
def describe_resource (P : ProxyModel) (env : DescribeEnv) (fuel : Nat)
    (tid : String) (b64 : Option String)
    (kwargs : List (String × LitVal)) (ctr : Nat) :
    Option (Graph × Nat) :=
  match P.rdict tid with
  | none => none
  | some td =>
      match describeBody P env fuel td tid b64 kwargs ctr with
      | .error (g, ttl, _, _) => some (g, ttl)
      | .ok (g, ttl, _, _) => some (g, ttl)

/-- C2 (amended): `describe_resource` returns a graph exactly for the
ids the proxy knows.  For a known id no behaviour of the outside world
— argument decoding, registry lookups, same-as fetching, endpoint
invocation, mapping, enrichment or materialization, any of which may
raise — can make the call fail: the `try` handler catches everything
and the accumulated graph and lifetime are returned.  For an unknown id
the lookup happens before the `try` and the exception propagates, and
the returned lifetime after a partial failure is the accumulated one,
not necessarily the default (`c2_counterexample`). -/
theorem c2_describe_total (P : ProxyModel) (env : DescribeEnv)
    (fuel : Nat) (tid : String) (b64 : Option String)
    (kwargs : List (String × LitVal)) (ctr : Nat) :
    (describe_resource P env fuel tid b64 kwargs ctr).isSome =
      (P.rdict tid).isSome := by
  unfold describe_resource
  cases P.rdict tid with
  | none => rfl
  | some td =>
      cases h : describeBody P env fuel td tid b64 kwargs ctr with
      | error s =>
          obtain ⟨g, ttl, a, b⟩ := s
          simp [h]
      | ok s =>
          obtain ⟨g, ttl, a, b⟩ := s
          simp [h]

theorem describeEpStep_raise (P : ProxyModel) (env : DescribeEnv)
    (fuel : Nat) (td : TDModel) (ruri : String)
    (rargs : List (String × LitVal))
    (st : Graph × Nat × List CEndpoint × Nat) (e : CEndpoint)
    (hinv : env.invoke e st.1 rargs = .raise) :
    describeEpStep P env fuel td ruri rargs st e =
      .error (st.1, st.2.1, st.2.2.1 ++ [e], st.2.2.2) := by
  simp [describeEpStep, hinv]

theorem describeEpStep_skip (P : ProxyModel) (env : DescribeEnv)
    (fuel : Nat) (td : TDModel) (ruri : String)
    (rargs : List (String × LitVal))
    (st : Graph × Nat × List CEndpoint × Nat) (e : CEndpoint)
    (code : Nat) (body : Except Unit JValue) (ma : Option Nat)
    (hinv : env.invoke e st.1 rargs = .resp code body ma)
    (hcode : code ≠ 200) :
    describeEpStep P env fuel td ruri rargs st e =
      .ok (st.1, st.2.1, st.2.2.1 ++ [e], st.2.2.2) := by
  simp [describeEpStep, hinv, hcode]

theorem describeEpStep_200 (P : ProxyModel) (env : DescribeEnv)
    (fuel : Nat) (td : TDModel) (ruri : String)
    (rargs : List (String × LitVal))
    (st : Graph × Nat × List CEndpoint × Nat) (e : CEndpoint)
    (ma : Option Nat) (data mapped : JValue) (ld : EnrichOut)
    (ctr1 : Nat) (g1 : Graph) (stB : BidState)
    (hinv : env.invoke e st.1 rargs = .resp 200 (.ok data) ma)
    (hmap : apply_mappings P.ns env.pathEval fuel data
      (env.epMappings td.id e) = .ok mapped)
    (henr : enrich P.fountain P.ns env.extendUri env.natDatatype
      env.evalLazy1 env.evalLazyL fuel ruri mapped td.types [] td.vars
      rargs st.2.2.2 = .ok (ld, ctr1))
    (hld : ld_triples env.off (env.normalize ld) st.1 ctr1 =
      .ok (g1, stB)) :
    describeEpStep P env fuel td ruri rargs st e =
      .ok (g1, (match ma with
        | none => st.2.1
        | some 0 => st.2.1
        | some m => min st.2.1 m), st.2.2.1 ++ [e], stB.ctr) := by
  simp [describeEpStep, hinv, hmap, henr, hld]
  cases ma with
  | none => rfl
  | some m => cases m <;> rfl

theorem epFold_skip_raise (P : ProxyModel) (env : DescribeEnv)
    (fuel : Nat) (td : TDModel) (ruri : String)
    (rargs : List (String × LitVal)) (es1 : List CEndpoint)
    (e : CEndpoint) (es2 : List CEndpoint) (g : Graph) (ttl : Nat)
    (inv : List CEndpoint) (ctr : Nat)
    (hskip : ∀ e' ∈ es1, ∃ code body ma,
      env.invoke e' g rargs = .resp code body ma ∧ code ≠ 200)
    (hraise : env.invoke e g rargs = .raise) :
    (es1 ++ e :: es2).foldlM (describeEpStep P env fuel td ruri rargs)
        (g, ttl, inv, ctr) =
      .error (g, ttl, inv ++ es1 ++ [e], ctr) := by
  induction es1 generalizing inv with
  | nil =>
      rw [List.nil_append, List.foldlM_cons, describeEpStep_raise P env
        fuel td ruri rargs (g, ttl, inv, ctr) e hraise]
      simp only [List.append_nil]
      rfl
  | cons e1 es1' ih =>
      obtain ⟨code, body, ma, hinv, hcode⟩ :=
        hskip e1 (List.mem_cons_self _ _)
      rw [List.cons_append, List.foldlM_cons, describeEpStep_skip P env
        fuel td ruri rargs (g, ttl, inv, ctr) e1 code body ma hinv
        hcode]
      have ih' := ih (inv ++ [e1])
        (fun e' he' => hskip e' (List.mem_cons_of_mem _ he'))
      show (es1' ++ e :: es2).foldlM
          (describeEpStep P env fuel td ruri rargs)
          (g, ttl, inv ++ [e1], ctr) =
        .error (g, ttl, inv ++ (e1 :: es1') ++ [e], ctr)
      rw [ih']
      simp

/-- C1 (amended): in the endpoint loop of `describe`, an endpoint whose
call returns a non-success status is skipped and the remaining
endpoints of the chain are still processed, but an endpoint whose call
raises aborts the rest of the chain: after any run of skipped
non-success endpoints, a raising endpoint ends the loop with the graph
and cache lifetime accumulated so far and the later endpoints never
invoked.  A successful 200 response that maps, enriches and
materializes cleanly contributes its triples and lowers the cache
lifetime to its freshness hint (a truthy hint takes `min`, an absent or
zero hint leaves the lifetime unchanged), and the loop continues, so
the lifetime is derived only from the hints of successful responses
processed before any abort. -/
theorem c1_endpoint_loop (P : ProxyModel) (env : DescribeEnv)
    (fuel : Nat) (td : TDModel) (ruri : String)
    (rargs : List (String × LitVal)) (e : CEndpoint)
    (es2 : List CEndpoint) (g : Graph) (ttl : Nat)
    (inv : List CEndpoint) (ctr : Nat) :
    ((∀ es1, (∀ e' ∈ es1, ∃ code body ma,
        env.invoke e' g rargs = .resp code body ma ∧ code ≠ 200) →
      env.invoke e g rargs = .raise →
      (es1 ++ e :: es2).foldlM (describeEpStep P env fuel td ruri rargs)
          (g, ttl, inv, ctr) =
        .error (g, ttl, inv ++ es1 ++ [e], ctr))) ∧
    (∀ ma data mapped ld ctr1 g1 stB,
      env.invoke e g rargs = .resp 200 (.ok data) ma →
      apply_mappings P.ns env.pathEval fuel data
        (env.epMappings td.id e) = .ok mapped →
      enrich P.fountain P.ns env.extendUri env.natDatatype env.evalLazy1
        env.evalLazyL fuel ruri mapped td.types [] td.vars rargs ctr =
        .ok (ld, ctr1) →
      ld_triples env.off (env.normalize ld) g ctr1 = .ok (g1, stB) →
      (e :: es2).foldlM (describeEpStep P env fuel td ruri rargs)
          (g, ttl, inv, ctr) =
        es2.foldlM (describeEpStep P env fuel td ruri rargs)
          (g1, (match ma with
            | none => ttl
            | some 0 => ttl
            | some m => min ttl m), inv ++ [e], stB.ctr)) := by
  constructor
  · intro es1 hskip hraise
    exact epFold_skip_raise P env fuel td ruri rargs es1 e es2 g ttl inv
      ctr hskip hraise
  · intro ma data mapped ld ctr1 g1 stB hinv hmap henr hld
    rw [List.foldlM_cons, describeEpStep_200 P env fuel td ruri rargs
      (g, ttl, inv, ctr) e ma data mapped ld ctr1 g1 stB hinv hmap henr
      hld]
    cases ma with
    | none => rfl
    | some m => cases m <;> rfl

set_option synthInstance.maxSize 1024
set_option synthInstance.maxHeartbeats 1000000

/-- A two-endpoint resource: both endpoints addressed, priorities 1 and
2. -/
def dE1 : BaseEndpoint := ⟨some "http://e1", 1, 1⟩

def dE2 : BaseEndpoint := ⟨some "http://e2", 2, 2⟩

def dTD : TDModel := ⟨"A", .uri "urn:A", [], [], [dE1, dE2], [], []⟩

def dP : ProxyModel :=
  ⟨fun t => if t = "A" then some dTD else none, fun _ => none,
   fun _ => [], id, ⟨fun _ => none, fun _ => none⟩,
   fun t _ => String.append "http://w/" t⟩

/-- A describe environment whose normalizer emits one triple tagged by
the response body, so each endpoint's contribution is recognizable. -/
def dEnvOf (inv : CEndpoint → Graph → List (String × LitVal) →
    InvokeResult) : DescribeEnv :=
  ⟨fun _ => .error (), fun _ => "", fun _ => .error (), inv,
   fun _ _ => [], fun _ _ => [],
   fun ld => [(.iri (match jlookup ld.graph "tag" with
     | some (.s s) => s
     | _ => "urn:x"), .iri "urn:p", .iri "urn:o")],
   id, fun _ => none, fun _ _ _ _ _ => JValue.null,
   fun _ _ _ _ _ => [], 0⟩

/-- Endpoint 1 raises; endpoint 2 would answer 200. -/
def c1envRaise : DescribeEnv := dEnvOf (fun e _ _ =>
  if e = [dE1] then .raise
  else .resp 200 (.ok (.obj [("tag", .s "urn:s2")])) none)

/-- Endpoint 1 answers a non-success 500; endpoint 2 answers 200. -/
def c1envSkip : DescribeEnv := dEnvOf (fun e _ _ =>
  if e = [dE1] then .resp 500 (.error ()) none
  else .resp 200 (.ok (.obj [("tag", .s "urn:s2")])) none)

/-- Endpoint 1 answers 200 with freshness hint 50; endpoint 2 raises. -/
def c2env : DescribeEnv := dEnvOf (fun e _ _ =>
  if e = [dE1] then .resp 200 (.ok (.obj [("tag", .s "urn:s1")]))
    (some 50)
  else .raise)

/-- C1 counterexample: on the two-endpoint resource `dTD`, an endpoint
whose call raises is not skipped — the whole chain aborts: under
`c1envRaise` only endpoint 1 is ever invoked and endpoint 2's triple
never reaches the graph, even though endpoint 2 would have answered
200.  By contrast a non-success status is skipped: under `c1envSkip`
both endpoints are invoked and endpoint 2's triple is in the graph. -/
theorem c1_counterexample :
    describeBody dP c1envRaise 3 dTD "A" none [] 0 =
      .error ([], 100000, [[dE1]], 0) ∧
    c1envRaise.invoke [dE2] [] [] =
      .resp 200 (.ok (.obj [("tag", .s "urn:s2")])) none ∧
    describeBody dP c1envSkip 3 dTD "A" none [] 0 =
      .ok ([(.uri "urn:s2", .uri "urn:p", .uri "urn:o")], 100000,
        [[dE1], [dE2]], 0) :=
  ⟨by decide, by decide, by decide⟩

theorem c1_witness :
    ([[dE1], [dE2]] : List CEndpoint).foldlM
        (describeEpStep dP c1envRaise 3 dTD "u" [])
        ([], 100000, [], 0) =
      .error ([], 100000, [[dE1]], 0) :=
  (c1_endpoint_loop dP c1envRaise 3 dTD "u" [] [dE1] [[dE2]] [] 100000
    [] 0).1 [] (fun e' he' => absurd he' (List.not_mem_nil _))
    (by decide)

/-- C2 counterexample: the resource lookup happens before the `try`, so
describing an unknown id raises out of the call (`none`); and after
endpoint 1 succeeds with freshness hint 50 and endpoint 2 raises, the
call returns the accumulated lifetime 50, not the default 100000. -/
theorem c2_counterexample :
    describe_resource dP c2env 3 "B" none [] 0 = none ∧
    dP.rdict "B" = none ∧
    describe_resource dP c2env 3 "A" none [] 0 =
      some ([(.uri "urn:s1", .uri "urn:p", .uri "urn:o")], 50) ∧
    (50 : Nat) ≠ 100000 :=
  ⟨by decide, by decide, by decide, by decide⟩

theorem addT_mem (g : Graph) (t x : Triple) :
    x ∈ addT g t ↔ x ∈ g ∨ x = t := by
  unfold addT
  by_cases h : t ∈ g
  · rw [if_pos h]
    constructor
    · exact Or.inl
    · rintro (hx | hx)
      · exact hx
      · exact hx ▸ h
  · rw [if_neg h]
    simp [List.mem_append]

theorem foldl_addTOpt_mem {α : Type} (f : α → Option Triple)
    (l : List α) (g0 : Graph) (x : Triple) :
    x ∈ l.foldl (fun gg a =>
        match f a with
        | none => gg
        | some t' => addT gg t') g0 ↔
      x ∈ g0 ∨ ∃ a ∈ l, f a = some x := by
  induction l generalizing g0 with
  | nil => simp
  | cons a l ih =>
      rw [List.foldl_cons]
      cases hf : f a with
      | none =>
          rw [ih]
          constructor
          · rintro (h | ⟨a', ha', he⟩)
            · exact Or.inl h
            · exact Or.inr ⟨a', List.mem_cons_of_mem _ ha', he⟩
          · rintro (h | ⟨a', ha', he⟩)
            · exact Or.inl h
            · rcases List.mem_cons.mp ha' with he' | he'
              · subst he'
                rw [hf] at he
                exact absurd he (by simp)
              · exact Or.inr ⟨a', he', he⟩
      | some t' =>
          rw [ih, addT_mem]
          constructor
          · rintro ((h | h) | ⟨a', ha', he⟩)
            · exact Or.inl h
            · exact Or.inr ⟨a, List.mem_cons_self _ _, h ▸ hf⟩
            · exact Or.inr ⟨a', List.mem_cons_of_mem _ ha', he⟩
          · rintro (h | ⟨a', ha', he⟩)
            · exact Or.inl (Or.inl h)
            · rcases List.mem_cons.mp ha' with he' | he'
              · subst he'
                rw [hf] at he
                injection he with he
                exact Or.inl (Or.inr he.symm)
              · exact Or.inr ⟨a', he', he⟩

theorem foldl_addT_mem {α : Type} (f : α → Triple) (l : List α)
    (g0 : Graph) (x : Triple) :
    x ∈ l.foldl (fun gg a => addT gg (f a)) g0 ↔
      x ∈ g0 ∨ ∃ a ∈ l, x = f a := by
  induction l generalizing g0 with
  | nil => simp
  | cons a l ih =>
      rw [List.foldl_cons, ih, addT_mem]
      constructor
      · rintro ((h | h) | ⟨a', ha', he⟩)
        · exact Or.inl h
        · exact Or.inr ⟨a, List.mem_cons_self _ _, h⟩
        · exact Or.inr ⟨a', List.mem_cons_of_mem _ ha', he⟩
      · rintro (h | ⟨a', ha', he⟩)
        · exact Or.inl (Or.inl h)
        · rcases List.mem_cons.mp ha' with he' | he'
          · subst he'
            exact Or.inl (Or.inr he)
          · exact Or.inr ⟨a', he', he⟩

theorem foldl_staticStep_mem (P : ProxyModel) (env : DescribeEnv)
    (b64 : Option String) (rargs : List (String × LitVal)) (node : Term)
    (ruri : String) (l : List Triple) (g0 : Graph) (x : Triple) :
    x ∈ l.foldl (staticStep P env b64 rargs node ruri) g0 ↔
      x ∈ g0 ∨ ∃ tr ∈ l,
        staticRewrite P env b64 rargs node ruri tr = some x :=
  foldl_addTOpt_mem (staticRewrite P env b64 rargs node ruri) l g0 x

theorem typesFold_mem (P : ProxyModel) (env : DescribeEnv)
    (ruri : String) (types : List TType) (g1 : Graph)
    (props0 : List String) (g2 : Graph) (props : List String)
    (hok : types.foldlM (describeTypeStep P env ruri) (g1, props0) =
      .ok (g2, props)) (x : Triple) :
    x ∈ g2 ↔ x ∈ g1 ∨ ∃ t ∈ types, ∃ tdd,
      P.fountain.getType (renderT P.ns t) = some tdd ∧ ∃ s ∈ tdd.super,
        x = (Term.uri ruri, Term.uri rdfType,
          Term.uri (env.extendUri s)) := by
  induction types generalizing g1 props0 with
  | nil =>
      injection hok with h
      injection h with h1 h2
      subst h1
      simp
  | cons t ts ih =>
      rw [List.foldlM_cons] at hok
      cases hgt : P.fountain.getType (renderT P.ns t) with
      | none =>
          have hstep : describeTypeStep P env ruri (g1, props0) t =
              .error g1 := by
            unfold describeTypeStep
            rw [hgt]
          rw [hstep] at hok
          have hcontra : (Except.error g1 :
              Except Graph (Graph × List String)) = .ok (g2, props) :=
            hok
          exact absurd hcontra (by simp)
      | some tdd =>
          have hstep : describeTypeStep P env ruri (g1, props0) t =
              .ok (tdd.super.foldl (fun gg s =>
                addT gg (Term.uri ruri, Term.uri rdfType,
                  Term.uri (env.extendUri s))) g1,
                props0 ++ tdd.props) := by
            unfold describeTypeStep
            rw [hgt]
          rw [hstep] at hok
          have hok2 : ts.foldlM (describeTypeStep P env ruri)
              (tdd.super.foldl (fun gg s =>
                addT gg (Term.uri ruri, Term.uri rdfType,
                  Term.uri (env.extendUri s))) g1,
               props0 ++ tdd.props) = .ok (g2, props) := hok
          rw [ih _ _ hok2, foldl_addT_mem]
          constructor
          · rintro ((h | ⟨s, hs, he⟩) | ⟨t', ht', tdd', hgt', hrest⟩)
            · exact Or.inl h
            · exact Or.inr ⟨t, List.mem_cons_self _ _, tdd, hgt, s, hs,
                he⟩
            · exact Or.inr ⟨t', List.mem_cons_of_mem _ ht', tdd', hgt',
                hrest⟩
          · rintro (h | ⟨t', ht', tdd', hgt', s, hs, he⟩)
            · exact Or.inl (Or.inl h)
            · rcases List.mem_cons.mp ht' with he' | he'
              · subst he'
                rw [hgt] at hgt'
                injection hgt' with hgt'
                subst hgt'
                exact Or.inl (Or.inr ⟨s, hs, he⟩)
              · exact Or.inr ⟨t', he', tdd', hgt', s, hs, he⟩

theorem saFold_mem (P : ProxyModel) (env : DescribeEnv) (ruri : String)
    (props : List String) (srcs : List String) (g2 g3 : Graph)
    (hok : srcs.foldlM (describeSameAsStep P env ruri props) g2 =
      .ok g3) (x : Triple) :
    x ∈ g3 ↔ x ∈ g2 ∨ ∃ h ∈ srcs,
      x = (Term.uri ruri, Term.uri owlSameAs, Term.uri h) ∨
      ∃ sg, env.sameAsLoad h = .ok sg ∧
        ∃ tr ∈ sg, saRewrite P ruri props h tr = some x := by
  induction srcs generalizing g2 with
  | nil =>
      injection hok with h
      subst h
      simp
  | cons hr hs ih =>
      rw [List.foldlM_cons] at hok
      cases hld : env.sameAsLoad hr with
      | error e =>
          have hstep : describeSameAsStep P env ruri props g2 hr =
              .error (addT g2 (Term.uri ruri, Term.uri owlSameAs,
                Term.uri hr)) := by
            unfold describeSameAsStep
            rw [hld]
          rw [hstep] at hok
          have hcontra : (Except.error (addT g2 (Term.uri ruri,
              Term.uri owlSameAs, Term.uri hr)) :
              Except Graph Graph) = .ok g3 := hok
          exact absurd hcontra (by simp)
      | ok sg =>
          have hstep : describeSameAsStep P env ruri props g2 hr =
              .ok (sg.foldl (fun gg tr =>
                match saRewrite P ruri props hr tr with
                | none => gg
                | some t' => addT gg t')
                (addT g2 (Term.uri ruri, Term.uri owlSameAs,
                  Term.uri hr))) := by
            unfold describeSameAsStep
            rw [hld]
          rw [hstep] at hok
          have hok2 : hs.foldlM (describeSameAsStep P env ruri props)
              (sg.foldl (fun gg tr =>
                match saRewrite P ruri props hr tr with
                | none => gg
                | some t' => addT gg t')
                (addT g2 (Term.uri ruri, Term.uri owlSameAs,
                  Term.uri hr))) = .ok g3 := hok
          rw [ih _ hok2, foldl_addTOpt_mem, addT_mem]
          constructor
          · rintro (((h | h) | ⟨tr, htr, he⟩) | ⟨h', hh', hrest⟩)
            · exact Or.inl h
            · exact Or.inr ⟨hr, List.mem_cons_self _ _, Or.inl h⟩
            · exact Or.inr ⟨hr, List.mem_cons_self _ _,
                Or.inr ⟨sg, hld, tr, htr, he⟩⟩
            · exact Or.inr ⟨h', List.mem_cons_of_mem _ hh', hrest⟩
          · rintro (h | ⟨h', hh', hrest⟩)
            · exact Or.inl (Or.inl (Or.inl h))
            · rcases List.mem_cons.mp hh' with he' | he'
              · subst he'
                rcases hrest with he | ⟨sg', hld', tr, htr, he⟩
                · exact Or.inl (Or.inl (Or.inr he))
                · rw [hld] at hld'
                  injection hld' with hld'
                  subst hld'
                  exact Or.inl (Or.inr ⟨tr, htr, he⟩)
              · exact Or.inr ⟨h', he', hrest⟩

/-- C3: for a resource that declares no endpoints, `describe` performs
zero upstream endpoint calls and — provided the pre-endpoint stages
themselves succeed (argument decoding, every type registry lookup,
every same-as fetch) — returns exactly the graph derived from its
static triples after placeholder, cross-reference and argument
rewriting, plus one type-hierarchy expansion triple per supertype of
each declared type, plus the `owl:sameAs` statements and the
property-filtered triples of each same-as source, with the default
cache lifetime 100000. -/
theorem c3_no_endpoints (P : ProxyModel) (env : DescribeEnv)
    (fuel : Nat) (tid : String) (td : TDModel) (b64 : Option String)
    (kwargs : List (String × LitVal)) (ctr : Nat)
    (rargs : List (String × LitVal)) (ruri : String) (g2 : Graph)
    (props : List String) (g3 : Graph)
    (htd : P.rdict tid = some td)
    (hbase : td.base = [])
    (hdec : (match b64 with
      | none => (Except.ok [] : Except Unit (List (String × LitVal)))
      | some s => env.decodeB64 s) = .ok rargs)
    (hruri : ruri = (if kwargs = [] then P.wrapperUrl tid b64
      else P.wrapperUrl tid b64 ++ "?" ++ String.intercalate "&"
        (kwargs.map (fun kv => kv.1 ++ "=" ++ env.pyStr kv.2))))
    (hty : td.types.foldlM (describeTypeStep P env ruri)
      (td.graph.foldl (staticStep P env b64 rargs td.node ruri) [],
        []) = .ok (g2, props))
    (hsa : td.rdfSources.foldlM (describeSameAsStep P env ruri props)
      g2 = .ok g3) :
    describeBody P env fuel td tid b64 kwargs ctr =
      .ok (g3, 100000, [], ctr) ∧
    describe_resource P env fuel tid b64 kwargs ctr =
      some (g3, 100000) ∧
    (∀ x : Triple, x ∈ g3 ↔
      (∃ tr ∈ td.graph,
        staticRewrite P env b64 rargs td.node ruri tr = some x) ∨
      (∃ t ∈ td.types, ∃ tdd,
        P.fountain.getType (renderT P.ns t) = some tdd ∧
        ∃ s ∈ tdd.super, x = (Term.uri ruri, Term.uri rdfType,
          Term.uri (env.extendUri s))) ∨
      (∃ h ∈ td.rdfSources,
        x = (Term.uri ruri, Term.uri owlSameAs, Term.uri h) ∨
        ∃ sg, env.sameAsLoad h = .ok sg ∧
          ∃ tr ∈ sg, saRewrite P ruri props h tr = some x)) := by
  subst hruri
  have hbody : describeBody P env fuel td tid b64 kwargs ctr =
      .ok (g3, 100000, [], ctr) := by
    unfold describeBody
    rw [hdec]
    simp only [hty, hsa, hbase]
    rfl
  refine ⟨hbody, ?_, ?_⟩
  · simp [describe_resource, htd, hbody]
  · intro x
    rw [saFold_mem P env _ props td.rdfSources g2 g3 hsa x,
      typesFold_mem P env _ td.types _ [] g2 props hty x,
      foldl_staticStep_mem]
    simp only [List.not_mem_nil, false_or, or_assoc]

/-- A no-endpoint resource with a placeholder literal, a blank
cross-reference, one declared type with a supertype and one same-as
source. -/
def td3 : TDModel :=
  ⟨"C", .uri "urn:C",
   [(.uri "urn:C", .uri "urn:p1", .lit (.str "$v") none),
    (.uri "urn:C", .uri "urn:p2", .bnode "b1")],
   [.n3s "ex:T"], [], ["http://sa"], []⟩

def P3 : ProxyModel :=
  ⟨fun t => if t = "C" then some td3 else none,
   fun b => if b = "b1" then some "D" else none,
   fun _ => [], id,
   ⟨fun t => if t = "ex:T" then some ⟨["p1"], ["sup:S"]⟩ else none,
    fun _ => none⟩,
   fun t _ => String.append "http://w/" t⟩

def env3 : DescribeEnv :=
  ⟨fun s => if s = "XYZ" then .ok [("$v", LitVal.int 9)] else .error (),
   fun lv => match lv with
     | .str s => s
     | _ => "",
   fun h => if h = "http://sa" then
       .ok [(.uri "http://sa", .uri "p1", .lit (.str "w") none),
            (.uri "http://sa", .uri "q", .lit (.str "v2") none)]
     else .error (),
   fun _ _ _ => .raise, fun _ _ => [], fun _ _ => [], fun _ => [],
   id, fun _ => none, fun _ _ _ _ _ => JValue.null,
   fun _ _ _ _ _ => [], 0⟩

/-- The expected description of `td3`: the rewritten static triples,
the supertype expansion, the `owl:sameAs` statement and the filtered
same-as triple. -/
def g3c : Graph :=
  [(.uri "http://w/C", .uri "urn:p1", .lit (.int 9) none),
   (.uri "http://w/C", .uri "urn:p2", .uri "http://w/D"),
   (.uri "http://w/C", .uri rdfType, .uri "sup:S"),
   (.uri "http://w/C", .uri owlSameAs, .uri "http://sa"),
   (.uri "http://w/C", .uri "p1", .lit (.str "w") none)]

theorem c3_witness :
    describeBody P3 env3 3 td3 "C" (some "XYZ") [] 0 =
      .ok (g3c, 100000, [], 0) ∧
    describe_resource P3 env3 3 "C" (some "XYZ") [] 0 =
      some (g3c, 100000) := by
  have h := c3_no_endpoints P3 env3 3 "C" td3 (some "XYZ") [] 0
    [("$v", LitVal.int 9)] "http://w/C" (g3c.take 3) ["p1"] g3c
    (by decide) (by decide) (by decide) (by decide) (by decide)
    (by decide)
  exact ⟨h.1, h.2.1⟩
